import Mathlib

/-!
Verification of the grok2api gateway core against its specification.

The definitions below are shallow embeddings of the TypeScript source:
  - src/repo/apiKeyUsage.ts  (quota ledger: localDayString, tryConsumeDailyUsage,
    tryConsumeDailyUsageMulti)
  - src/routes/openai.ts     (enforceQuota, pickImageResults, the image event
    streams, the /images/edits file loop, response-format resolution, and the
    /chat/completions control flow)

JavaScript numbers are modelled as rationals; a possibly-NaN number is
modelled as an Option, with none standing for NaN.  SQLite counters are
integers.  Stateful database rows for one fixed (key, day) pair are modelled
as an Option of the row (none = row absent).
-/

namespace Grok2Api

/-- A JavaScript number that may be NaN: none models NaN. -/
abbrev JsNum := Option ℚ

/-- Model of the JS expression x || d for numbers: NaN, 0 and -0 are falsy. -/
def jsOr (x : JsNum) (d : ℚ) : ℚ :=
  match x with
  | none => d
  | some v => if v = 0 then d else v

/-- Model of Math.max(0, Math.floor(Number(inc) || 0)), the increment
normalization both consume functions apply. -/
def normInc (inc : JsNum) : ℤ :=
  max 0 ⌊jsOr inc 0⌋

/-- One row of api_key_usage_daily for a fixed (key, day): four integer
counters (updated_at is irrelevant to the claims and omitted). -/
structure ApiKeyUsageRow where
  chat_used : ℤ
  heavy_used : ℤ
  image_used : ℤ
  video_used : ℤ
deriving DecidableEq, Repr

/-- The four counter columns of api_key_usage_daily. -/
inductive ApiKeyUsageField where
  | chat_used
  | heavy_used
  | image_used
  | video_used
deriving DecidableEq, Repr

/-- Read one counter column of a row. -/
def getField (r : ApiKeyUsageRow) : ApiKeyUsageField → ℤ
  | .chat_used => r.chat_used
  | .heavy_used => r.heavy_used
  | .image_used => r.image_used
  | .video_used => r.video_used

/-- Write one counter column of a row. -/
def setField (r : ApiKeyUsageRow) : ApiKeyUsageField → ℤ → ApiKeyUsageRow
  | .chat_used, v => { r with chat_used := v }
  | .heavy_used, v => { r with heavy_used := v }
  | .image_used, v => { r with image_used := v }
  | .video_used, v => { r with video_used := v }

/-- The freshly created row: every counter column defaults to 0 per the
migration 0005_api_key_quotas.sql. -/
def zeroRow : ApiKeyUsageRow := ⟨0, 0, 0, 0⟩

/-- Model of ensureUsageRow: INSERT OR IGNORE creates the (key, day) row with
zero counters when absent and leaves an existing row untouched. -/
def ensureUsageRow (st : Option ApiKeyUsageRow) : ApiKeyUsageRow :=
  st.getD zeroRow

/-- Counter value as observed by callers: an absent row counts as 0. -/
def counterOf (st : Option ApiKeyUsageRow) (f : ApiKeyUsageField) : ℤ :=
  getField (ensureUsageRow st) f

/-- Model of tryConsumeDailyUsage from src/repo/apiKeyUsage.ts.  The
increment is normalized to max(0, floor(inc || 0)); a zero increment returns
true without touching storage; otherwise the row is created if absent and the
single conditional UPDATE increments the column exactly when
limit < 0 OR column + inc <= limit, returning whether a row changed. -/
def tryConsumeDailyUsage (st : Option ApiKeyUsageRow) (field : ApiKeyUsageField)
    (inc : JsNum) (limit : ℚ) : Option ApiKeyUsageRow × Bool :=
  let i := normInc inc
  if i = 0 then (st, true)
  else
    let row := ensureUsageRow st
    if limit < 0 ∨ ((getField row field + i : ℤ) : ℚ) ≤ limit then
      (some (setField row field (getField row field + i)), true)
    else
      (some row, false)

/-- One entry of the updates array taken by tryConsumeDailyUsageMulti. -/
structure UsageUpdate where
  field : ApiKeyUsageField
  inc : JsNum
  limit : JsNum

/-- A normalized update, after the map step inside tryConsumeDailyUsageMulti. -/
structure NormUpdate where
  field : ApiKeyUsageField
  inc : ℤ
  limit : ℤ
deriving DecidableEq, Repr

/-- Model of the normalization tryConsumeDailyUsageMulti applies to each
update: inc becomes max(0, floor(inc || 0)) and limit becomes
floor(limit || -1).  Note that the JS expression Number(limit) || -1 maps
the number 0 (falsy) to -1 as well as NaN. -/
def normalizeUpdate (u : UsageUpdate) : NormUpdate :=
  ⟨u.field, max 0 ⌊jsOr u.inc 0⌋, ⌊jsOr u.limit (-1)⌋⟩

/-- Model of tryConsumeDailyUsageMulti from src/repo/apiKeyUsage.ts: the
updates are normalized and those with inc ≤ 0 dropped; with nothing left the
call returns true without touching storage; otherwise one conditional UPDATE
whose WHERE conjoins (limit < 0 OR column + inc <= limit) over all updates
applies every SET together or nothing.  SQL SET right-hand sides read the
pre-update row, which the fold mirrors by always reading from row. -/
def tryConsumeDailyUsageMulti (st : Option ApiKeyUsageRow)
    (updates : List UsageUpdate) : Option ApiKeyUsageRow × Bool :=
  if ((updates.map normalizeUpdate).filter (fun u => 0 < u.inc)).isEmpty then (st, true)
  else if ((updates.map normalizeUpdate).filter (fun u => 0 < u.inc)).all
      (fun u => decide (u.limit < 0 ∨ getField (ensureUsageRow st) u.field + u.inc ≤ u.limit)) then
    (some (((updates.map normalizeUpdate).filter (fun u => 0 < u.inc)).foldl
      (fun acc u => setField acc u.field (getField (ensureUsageRow st) u.field + u.inc))
      (ensureUsageRow st)), true)
  else
    (some (ensureUsageRow st), false)

/-- Per-key daily limits as read from api_keys (-1 = unlimited). -/
structure ApiKeyLimits where
  chat_limit : ℚ
  heavy_limit : ℚ
  image_limit : ℚ
  video_limit : ℚ

/-- Quota kinds distinguished by enforceQuota in src/routes/openai.ts. -/
inductive QuotaKind where
  | chat
  | image
  | video
deriving DecidableEq, Repr

/-- Model of enforceQuota from src/routes/openai.ts, acting on the usage row
of the caller's (key, day).  Returns the new row state together with none on
admission or some bucket-name on a 429 rejection.  Requests without a key,
admin keys, and keys without a limits row are admitted without consuming.
The model "grok-4-heavy" consumes heavy and chat together through
tryConsumeDailyUsageMulti; video and image kinds consume their bucket; image
consumption uses max(1, floor((imageCount ?? 1) || 1)). -/
def enforceQuota (key : Option String) (isAdmin : Bool)
    (limits : Option ApiKeyLimits) (model : String) (kind : QuotaKind)
    (imageCount : Option JsNum) (st : Option ApiKeyUsageRow) :
    Option ApiKeyUsageRow × Option String :=
  match key with
  | none => (st, none)
  | some _ =>
    if isAdmin then (st, none)
    else
      match limits with
      | none => (st, none)
      | some lim =>
        if model = "grok-4-heavy" then
          let r := tryConsumeDailyUsageMulti st
            [⟨.heavy_used, some 1, some lim.heavy_limit⟩,
             ⟨.chat_used, some 1, some lim.chat_limit⟩]
          (r.1, if r.2 then none else some "heavy/chat")
        else
          match kind with
          | .video =>
            let r := tryConsumeDailyUsage st .video_used (some 1) lim.video_limit
            (r.1, if r.2 then none else some "video")
          | .image =>
            let ic : ℤ := max 1 ⌊jsOr (imageCount.getD (some 1)) 1⌋
            let r := tryConsumeDailyUsage st .image_used (some (ic : ℚ)) lim.image_limit
            (r.1, if r.2 then none else some "image")
          | .chat =>
            let r := tryConsumeDailyUsage st .chat_used (some 1) lim.chat_limit
            (r.1, if r.2 then none else some "chat")

/-- Threading helper: the state after one tryConsumeDailyUsage call. -/
def consumeStep (field : ApiKeyUsageField) (limit : ℚ)
    (st : Option ApiKeyUsageRow) (inc : JsNum) : Option ApiKeyUsageRow :=
  (tryConsumeDailyUsage st field inc limit).1

/-- State of the usage row after a sequence of tryConsumeDailyUsage calls on
one bucket with one limit, starting from a fresh day (no row). -/
def stateAfter (field : ApiKeyUsageField) (limit : ℚ) (incs : List JsNum) :
    Option ApiKeyUsageRow :=
  incs.foldl (consumeStep field limit) none

/-! Image result selection: pickImageResults from src/routes/openai.ts.
Math.random is modelled by an oracle rand : ℕ → ℕ consulted once per loop
iteration; the chosen index Math.floor(Math.random() * pool.length) is
modelled as rand k % pool.length, which ranges over the same values. -/

/-- The while-loop of pickImageResults: repeatedly splice a random element
out of the pool and push it (JS truthiness drops an empty string) until
enough are picked or the pool is exhausted.  The fuel argument equals the
pool length at every call, and each iteration removes exactly one element,
so the fuel never runs out before the pool does. -/
def pickLoop (rand : ℕ → ℕ) (n : ℕ) : ℕ → ℕ → List String → List String → List String
  | 0, _, _, picked => picked
  | fuel+1, k, pool, picked =>
    if picked.length < n ∧ pool ≠ [] then
      pickLoop rand n fuel (k+1) (pool.eraseIdx (rand k % pool.length))
        (if pool.getD (rand k % pool.length) "" = "" then picked
         else picked ++ [pool.getD (rand k % pool.length) ""])
    else picked

/-- Model of pickImageResults: with at least n images, sample n of them
without replacement in random order; with fewer, deliver them all and pad
with the "error" placeholder up to n. -/
def pickImageResults (rand : ℕ → ℕ) (images : List String) (n : ℕ) : List String :=
  if n ≤ images.length then pickLoop rand n images.length 0 images []
  else images ++ List.replicate (n - images.length) "error"

/-! Image event streams from src/routes/openai.ts.  The SSE payloads carry a
constant usage block and a response-format field name; the claims concern
only the event kinds, indexes, progress values and carried image values, so
an event is modelled by those.  Conversion of a raw upstream URL
(convertRawUrlByFormat) is modelled by an oracle conv : String → String. -/

/-- One SSE event emitted by the image streams. -/
inductive ImageSse where
  | partialImage (index : ℤ) (progressVal : ℤ)
  | completed (value : String) (index : ℤ)
deriving DecidableEq, Repr

/-- Whether an event is an image_generation.completed event. -/
def isCompletedEvent : ImageSse → Bool
  | .completed _ _ => true
  | _ => false

/-- One parsed NDJSON line of the legacy upstream: an optional error
message, an optional streamingImageGenerationResponse (imageIndex,
progress), and the normalized generatedImageUrls list. -/
structure UpstreamLine where
  error : Option String
  progressEvent : Option (ℤ × ℤ)
  urls : List String
deriving DecidableEq, Repr

/-- The line loop of createImageEventStream: an error line throws (already
emitted events stay emitted, later lines are not read); a progress line
whose imageIndex misses the random target when n = 1 is skipped entirely
(continue, so its urls are not collected either); otherwise a partial event
is emitted and any urls on the line are converted and collected. -/
def legacyLoop (conv : String → String) (n : ℕ) (target : ℤ) :
    List UpstreamLine → List ImageSse → List String → List ImageSse × List String × Bool
  | [], evs, finals => (evs, finals, false)
  | l :: rest, evs, finals =>
    match l.error with
    | some _ => (evs, finals, true)
    | none =>
      match l.progressEvent with
      | some pv =>
        if n = 1 ∧ pv.1 ≠ target then legacyLoop conv n target rest evs finals
        else
          legacyLoop conv n target rest
            (evs ++ [.partialImage (if n = 1 then 0 else pv.1) pv.2])
            (finals ++ l.urls.map conv)
      | none => legacyLoop conv n target rest evs (finals ++ l.urls.map conv)

/-- The completion phase of createImageEventStream: one completed event per
collected image, skipping (for n = 1) every index other than the random
target. -/
def legacyCompletionEvents (finals : List String) (n : ℕ) (target : ℤ) : List ImageSse :=
  (List.range finals.length).filterMap fun (i : ℕ) =>
    if n = 1 ∧ (i : ℤ) ≠ target then none
    else some (.completed (finals.getD i "") (if n = 1 then 0 else (i : ℤ)))

/-- Model of createImageEventStream (legacy upstream-converted stream): the
event sequence it enqueues and whether it ended in controller.error. -/
def createImageEventStream (conv : String → String) (n : ℕ) (target : ℤ)
    (lines : List UpstreamLine) : List ImageSse × Bool :=
  match legacyLoop conv n target lines [] [] with
  | (evs, _, true) => (evs, true)
  | (evs, finals, false) => (evs ++ legacyCompletionEvents finals n target, false)

/-- Body of createSyntheticImageEventStream: for each selected value that is
neither empty nor the "error" placeholder, a partial event (progress 100)
followed by a completed event at its index. -/
def syntheticBodyGo : ℕ → List String → List ImageSse
  | _, [] => []
  | i, v :: rest =>
    (if v = "" ∨ v = "error" then []
     else [.partialImage (i : ℤ) 100, .completed v (i : ℤ)])
      ++ syntheticBodyGo (i+1) rest

/-- Model of createSyntheticImageEventStream (experimental strategy): when
nothing was emitted, a single completed event carrying the "error"
placeholder is emitted instead. -/
def createSyntheticImageEventStream (selected : List String) : List ImageSse :=
  if syntheticBodyGo 0 selected = [] then [.completed "error" 0]
  else syntheticBodyGo 0 selected

/-! JS string primitives used by the routes.  JavaScript's trim,
toLowerCase and endsWith are modelled over the character list of a string so
that every definition evaluates by kernel reduction; all strings involved in
the claims are ASCII. -/

/-- Whitespace removed by the JS trim used here (ASCII forms). -/
def isJsWhitespace (c : Char) : Bool :=
  c = ' ' || c = '\t' || c = '\n' || c = '\r'

/-- Model of JS String.prototype.trim. -/
def jsTrim (s : String) : String :=
  ⟨((s.data.dropWhile isJsWhitespace).reverse.dropWhile isJsWhitespace).reverse⟩

/-- Lower-case one ASCII character, as JS toLowerCase does on ASCII. -/
def jsLowerChar (c : Char) : Char :=
  if 'A' ≤ c ∧ c ≤ 'Z' then Char.ofNat (c.toNat + 32) else c

/-- Model of JS String.prototype.toLowerCase on ASCII strings. -/
def jsToLower (s : String) : String :=
  ⟨s.data.map jsLowerChar⟩

/-- Model of JS String.prototype.endsWith. -/
def jsEndsWith (s suffixPart : String) : Bool :=
  s.data.drop (s.data.length - suffixPart.data.length) == suffixPart.data

/-! /images/edits input validation, from src/routes/openai.ts. -/

/-- One multipart image file: name, content-type, and byte length. -/
structure UploadFile where
  name : String
  mimeType : String
  byteLength : ℕ
deriving DecidableEq, Repr

/-- Model of normalizeImageMime: trim, lower-case, and map image/jpg to
image/jpeg. -/
def normalizeImageMime (m : String) : String :=
  if jsToLower (jsTrim m) = "image/jpg" then "image/jpeg" else jsToLower (jsTrim m)

/-- Model of mimeFromFilename: extension fallback on the lower-cased name. -/
def mimeFromFilename (filename : String) : Option String :=
  if jsEndsWith (jsToLower filename) ".jpg" || jsEndsWith (jsToLower filename) ".jpeg" then
    some "image/jpeg"
  else if jsEndsWith (jsToLower filename) ".png" then some "image/png"
  else if jsEndsWith (jsToLower filename) ".webp" then some "image/webp"
  else none

/-- Model of parseAllowedImageMime: content-type first, filename fallback. -/
def parseAllowedImageMime (f : UploadFile) : Option String :=
  if normalizeImageMime f.mimeType = "image/png"
      ∨ normalizeImageMime f.mimeType = "image/jpeg"
      ∨ normalizeImageMime f.mimeType = "image/webp" then
    some (normalizeImageMime f.mimeType)
  else mimeFromFilename f.name

/-- Rejections produced by the /images/edits file checks. -/
inductive EditReject where
  | missingImage
  | tooManyImages
  | emptyFile
  | fileTooLarge
  | invalidImageType
deriving DecidableEq, Repr

/-- The 50MB input-file limit of /images/edits. -/
def maxImageBytes : ℕ := 50 * 1024 * 1024

/-- The per-file loop of POST /images/edits: each file is checked (empty,
too large, MIME) and then immediately uploaded before the next file is
looked at; the first output lists the files uploaded before the loop
finished or aborted. -/
def editsFileLoop : List UploadFile → List UploadFile → List UploadFile × Option EditReject
  | [], uploaded => (uploaded, none)
  | f :: rest, uploaded =>
    if f.byteLength = 0 then (uploaded, some .emptyFile)
    else if maxImageBytes < f.byteLength then (uploaded, some .fileTooLarge)
    else
      match parseAllowedImageMime f with
      | none => (uploaded, some .invalidImageType)
      | some _ => editsFileLoop rest (uploaded ++ [f])

/-- The file-validation stage of POST /images/edits: the count checks
(missing, more than 16) run before the upload loop. -/
def imagesEditsFileStage (files : List UploadFile) : List UploadFile × Option EditReject :=
  if files.length = 0 then ([], some .missingImage)
  else if 16 < files.length then ([], some .tooManyImages)
  else editsFileLoop files []

/-- A file that passes all three per-file checks. -/
def fileOk (f : UploadFile) : Bool :=
  decide (f.byteLength ≠ 0) && decide (f.byteLength ≤ maxImageBytes)
    && (parseAllowedImageMime f).isSome

/-! Image response-format resolution, from src/routes/openai.ts. -/

/-- A JS value arriving as response_format: absent, null, a string, or some
other non-string value. -/
inductive JsFormValue where
  | undef
  | nullv
  | str (s : String)
  | nonString
deriving DecidableEq, Repr

/-- String(defaultMode || "url").trim().toLowerCase(), as computed by both
resolveResponseFormat and resolveImageResponseFormatByMethodOrError. -/
def defaultModeNormalized (defaultMode : String) : String :=
  jsToLower (jsTrim (if defaultMode = "" then "url" else defaultMode))

/-- Model of resolveResponseFormat: a nonblank string raw value is used
(trimmed, lower-cased), anything else falls back to the normalized default;
only url, base64 and b64_json are legal, anything else yields none (a 400
error naming the three legal values). -/
def resolveResponseFormat (raw : JsFormValue) (defaultMode : String) : Option String :=
  match raw with
  | .str s =>
    if jsTrim s ≠ "" then
      if jsToLower (jsTrim s) = "url" ∨ jsToLower (jsTrim s) = "base64"
          ∨ jsToLower (jsTrim s) = "b64_json" then
        some (jsToLower (jsTrim s))
      else none
    else if defaultModeNormalized defaultMode = "url"
        ∨ defaultModeNormalized defaultMode = "base64"
        ∨ defaultModeNormalized defaultMode = "b64_json" then
      some (defaultModeNormalized defaultMode)
    else none
  | _ =>
    if defaultModeNormalized defaultMode = "url"
        ∨ defaultModeNormalized defaultMode = "base64"
        ∨ defaultModeNormalized defaultMode = "b64_json" then
      some (defaultModeNormalized defaultMode)
    else none

/-- The missing test of resolveImageResponseFormatByMethodOrError: raw is
undefined, null, or a blank string. -/
def isMissingResponseFormat : JsFormValue → Bool
  | .undef => true
  | .nullv => true
  | .str s => jsTrim s == ""
  | .nonString => false

/-- Model of resolveImageResponseFormatByMethodOrError: when the value is
missing, the configured method is the experimental websocket method, and the
normalized default is url, the default silently becomes b64_json before
ordinary resolution. -/
def resolveImageResponseFormatByMethodOrError (raw : JsFormValue)
    (defaultMode : String) (experimentalMethod : Bool) : Option String :=
  if isMissingResponseFormat raw && experimentalMethod
      && (defaultModeNormalized defaultMode == "url") then
    resolveResponseFormat raw "b64_json"
  else
    resolveResponseFormat raw defaultMode

/-! Control flow of POST /chat/completions, from src/routes/openai.ts.
Token selection and the upstream exchange are modelled by per-attempt
oracles; the handler's observable behaviour is summarized in a trace. -/

/-- Outcome of one attempt's upstream work: a successful exchange, a non-ok
upstream status, or a thrown exception (upload, post creation, network). -/
inductive UpstreamOutcome where
  | ok
  | httpError (status : ℕ)
  | exn
deriving DecidableEq, Repr

/-- The response the handler ends with. -/
inductive ChatResponse where
  | badRequest (code : String)
  | quotaExceeded (bucket : String)
  | noToken
  | success
  | upstreamError
deriving DecidableEq, Repr

/-- Observable trace of one inbound /chat/completions request. -/
structure ChatTrace where
  quotaCalls : ℕ
  selections : ℕ
  upstreamCalls : ℕ
  response : ChatResponse
  finalUsage : Option ApiKeyUsageRow
deriving DecidableEq, Repr

/-- The retry loop (maxRetry attempts remaining): select a token (none is an
immediate 503), run the attempt, and on a retryable http failure or an
exception retry while attempts remain; otherwise fall out with a 500.
Returns (selections made, attempts that did upstream work, response). -/
def chatAttemptLoop (selectToken : ℕ → Option String)
    (upstreamAt : ℕ → UpstreamOutcome) (retryCodes : List ℕ) :
    ℕ → ℕ → ℕ × ℕ × ChatResponse
  | _, 0 => (0, 0, .upstreamError)
  | attempt, remaining+1 =>
    match selectToken attempt with
    | none => (1, 0, .noToken)
    | some _ =>
      match upstreamAt attempt with
      | .ok => (1, 1, .success)
      | .httpError s =>
        if s ∈ retryCodes ∧ 0 < remaining then
          ((chatAttemptLoop selectToken upstreamAt retryCodes (attempt+1) remaining).1 + 1,
           (chatAttemptLoop selectToken upstreamAt retryCodes (attempt+1) remaining).2.1 + 1,
           (chatAttemptLoop selectToken upstreamAt retryCodes (attempt+1) remaining).2.2)
        else (1, 1, .upstreamError)
      | .exn =>
        if 0 < remaining then
          ((chatAttemptLoop selectToken upstreamAt retryCodes (attempt+1) remaining).1 + 1,
           (chatAttemptLoop selectToken upstreamAt retryCodes (attempt+1) remaining).2.1 + 1,
           (chatAttemptLoop selectToken upstreamAt retryCodes (attempt+1) remaining).2.2)
        else (1, 1, .upstreamError)

/-- The quota kind classification of the chat route: video models consume
video, image models consume image (weight 2), everything else chat; the
heavy model is special-cased inside enforceQuota by name. -/
def quotaKindOf (isVideoModel isImageModel : Bool) : QuotaKind :=
  if isVideoModel then .video else if isImageModel then .image else .chat

/-- Model of the POST /chat/completions handler: validation, then exactly
one enforceQuota call, then (only when admitted) the three-attempt loop. -/
def chatCompletionsHandler (modelName : String) (messagesPresent modelValid : Bool)
    (key : Option String) (isAdmin : Bool) (limits : Option ApiKeyLimits)
    (isVideoModel isImageModel : Bool) (selectToken : ℕ → Option String)
    (upstreamAt : ℕ → UpstreamOutcome) (retryCodes : List ℕ)
    (st : Option ApiKeyUsageRow) : ChatTrace :=
  if modelName = "" then ⟨0, 0, 0, .badRequest "missing_model", st⟩
  else if messagesPresent = false then ⟨0, 0, 0, .badRequest "missing_messages", st⟩
  else if modelValid = false then ⟨0, 0, 0, .badRequest "model_not_supported", st⟩
  else
    match enforceQuota key isAdmin limits modelName
        (quotaKindOf isVideoModel isImageModel)
        (if isImageModel then some (some 2) else none) st with
    | (st2, some bucket) => ⟨1, 0, 0, .quotaExceeded bucket, st2⟩
    | (st2, none) =>
      ⟨1, (chatAttemptLoop selectToken upstreamAt retryCodes 0 3).1,
       (chatAttemptLoop selectToken upstreamAt retryCodes 0 3).2.1,
       (chatAttemptLoop selectToken upstreamAt retryCodes 0 3).2.2, st2⟩

/-! The quota-reset day, from src/repo/apiKeyUsage.ts.  localDayString
shifts the timestamp by the configured offset and reads the UTC calendar
fields of a JS Date; the Date decomposition is modelled by the standard
proleptic-Gregorian civil-from-days algorithm, and JS number-to-string by a
decimal renderer over character lists. -/

/-- Year of era from day of era, the standard civil-from-days formula
(ECMA-262 time-to-date decomposition is the proleptic Gregorian calendar,
which this algorithm computes). -/
def yoeOf (n : ℕ) : ℕ := (n - n / 1460 + n / 36524 - n / 146096) / 365

/-- First day of era of a year of era (March-based years). -/
def startOfYoe (y : ℕ) : ℕ := 365 * y + y / 4 - y / 100

/-- Day of the (March-based) year from day of era. -/
def doyOf (n : ℕ) : ℕ := n - startOfYoe (yoeOf n)

/-- Month position (0 = March .. 11 = February) from day of era. -/
def mpOf (n : ℕ) : ℕ := (5 * doyOf n + 2) / 153

/-- Day of month from day of era. -/
def dayOfN (n : ℕ) : ℕ := doyOf n - (153 * mpOf n + 2) / 5 + 1

/-- Civil month (1..12) from day of era. -/
def monthOf (n : ℕ) : ℤ := (mpOf n : ℤ) + (if mpOf n < 10 then 3 else -9)

/-- 400-year era of a day number (division is euclidean, which for the
positive literal divisor is floor division). -/
def eraOf (z : ℤ) : ℤ := (z + 719468) / 146097

/-- Day of era (0..146096) of a day number. -/
def doeOf (z : ℤ) : ℕ := ((z + 719468) - eraOf z * 146097).toNat

/-- Civil (year, month, day) of a day number: the model of what
new Date(ms).getUTCFullYear/getUTCMonth+1/getUTCDate return for
ms = days * 86400000. -/
def civilFromDays (z : ℤ) : ℤ × ℤ × ℤ :=
  ((yoeOf (doeOf z) : ℤ) + eraOf z * 400 + (if monthOf (doeOf z) ≤ 2 then 1 else 0),
   monthOf (doeOf z), (dayOfN (doeOf z) : ℤ))

/-- Inverse of civilFromDays, used to prove it injective. -/
def daysFromCivil (y m d : ℤ) : ℤ :=
  ((y - (if m ≤ 2 then 1 else 0)) / 400) * 146097
    + ((startOfYoe (((y - (if m ≤ 2 then 1 else 0))
          - ((y - (if m ≤ 2 then 1 else 0)) / 400) * 400).toNat)
        + ((153 * (m + (if 2 < m then -3 else 9)).toNat + 2) / 5 + (d.toNat - 1)) : ℕ) : ℤ)
    - 719468

/-- Length of a civil month (proleptic Gregorian). -/
def daysInMonth (y m : ℤ) : ℤ :=
  if m = 2 then (if y % 4 = 0 ∧ (y % 100 ≠ 0 ∨ y % 400 = 0) then 29 else 28)
  else if m = 4 ∨ m = 6 ∨ m = 9 ∨ m = 11 then 30 else 31

/-- Calendar successor of a civil date. -/
def civilSucc (c : ℤ × ℤ × ℤ) : ℤ × ℤ × ℤ :=
  if c.2.2 < daysInMonth c.1 c.2.1 then (c.1, c.2.1, c.2.2 + 1)
  else if c.2.1 < 12 then (c.1, c.2.1 + 1, 1)
  else (c.1 + 1, 1, 1)

/-- Decimal digit character. -/
def digitChar (d : ℕ) : Char := Char.ofNat (48 + d)

/-- Numeric value of a digit character. -/
def charVal (c : Char) : ℕ := c.toNat - 48

/-- Decimal digits of a natural number, least significant first
(fuel-based structural recursion so that it evaluates by kernel
reduction). -/
def natToDigitsAux : ℕ → ℕ → List Char
  | 0, _ => []
  | _+1, 0 => []
  | fuel+1, m+1 => digitChar ((m+1) % 10) :: natToDigitsAux fuel ((m+1) / 10)

/-- Decimal rendering of a natural number, as JS String(n). -/
def natToStr (n : ℕ) : String := if n = 0 then "0" else ⟨(natToDigitsAux n n).reverse⟩

/-- Decimal rendering of an integer, as JS String(n). -/
def intToStr (i : ℤ) : String := if i < 0 then "-" ++ natToStr i.natAbs else natToStr i.natAbs

/-- Model of pad2 from src/repo/apiKeyUsage.ts: two-digit zero padding. -/
def pad2 (n : ℤ) : String := if n < 10 then "0" ++ intToStr n else intToStr n

/-- Decode a little-endian digit-character list; left inverse of the
renderings above. -/
def decodeRev : List Char → ℕ
  | [] => 0
  | c :: r => charVal c + 10 * decodeRev r

/-- The template string y-mm-dd of localDayString. -/
def formatDay (c : ℤ × ℤ × ℤ) : String :=
  intToStr c.1 ++ "-" ++ pad2 c.2.1 ++ "-" ++ pad2 c.2.2

/-- The local day number of a timestamp: floor((now + tz*60*1000) / 86400000),
the day that new Date(now + offsetMs) decomposes in UTC. -/
def localDayIndex (now tzOffsetMinutes : ℤ) : ℤ :=
  (now + tzOffsetMinutes * 60 * 1000) / 86400000

/-- Model of localDayString from src/repo/apiKeyUsage.ts: shift the clock by
the timezone offset and format the UTC calendar day as y-mm-dd. -/
def localDayString (now tzOffsetMinutes : ℤ) : String :=
  formatDay (civilFromDays (localDayIndex now tzOffsetMinutes))

lemma getField_setField (r : ApiKeyUsageRow) (f : ApiKeyUsageField) (v : ℤ) :
    getField (setField r f v) f = v := by
  cases f <;> rfl

lemma counterOf_consumeStep_le (field : ApiKeyUsageField) (limit : ℚ)
    (hl : 0 ≤ limit) (st : Option ApiKeyUsageRow) (inc : JsNum)
    (h : (counterOf st field : ℚ) ≤ limit) :
    (counterOf (consumeStep field limit st inc) field : ℚ) ≤ limit := by
  unfold consumeStep tryConsumeDailyUsage
  by_cases hi : normInc inc = 0
  · simpa [hi] using h
  · simp only [hi, if_neg]
    by_cases hc : limit < 0 ∨ ((getField (ensureUsageRow st) field + normInc inc : ℤ) : ℚ) ≤ limit
    · rw [if_pos hc]
      rcases hc with hneg | hle
      · linarith
      · simpa [counterOf, ensureUsageRow, getField_setField] using hle
    · rw [if_neg hc]
      simpa [counterOf, ensureUsageRow] using h

lemma counterOf_stateAfter_le (field : ApiKeyUsageField) (limit : ℚ)
    (hl : 0 ≤ limit) (incs : List JsNum) :
    (counterOf (stateAfter field limit incs) field : ℚ) ≤ limit := by
  have key : ∀ (l : List JsNum) (st : Option ApiKeyUsageRow),
      (counterOf st field : ℚ) ≤ limit →
      (counterOf (l.foldl (consumeStep field limit) st) field : ℚ) ≤ limit := by
    intro l
    induction l with
    | nil => intro st h; simpa using h
    | cons a t ih =>
      intro st h
      exact ih _ (counterOf_consumeStep_le field limit hl st a h)
  have h0 : (counterOf (none : Option ApiKeyUsageRow) field : ℚ) ≤ limit := by
    cases field <;> simpa [counterOf, ensureUsageRow, zeroRow, getField] using hl
  exact key incs none h0

/-- C2: with a nonnegative limit, any tryConsumeDailyUsage call arriving
after an arbitrary sequence of calls on the same bucket admits exactly when
the counter plus the normalized increment stays within the limit, and a
rejected call leaves the counter unchanged. -/
theorem tryConsume_sequence (field : ApiKeyUsageField) (limit : ℚ)
    (hl : 0 ≤ limit) (prev : List JsNum) (inc : JsNum) :
    ((tryConsumeDailyUsage (stateAfter field limit prev) field inc limit).2 = true
      ↔ ((counterOf (stateAfter field limit prev) field + normInc inc : ℤ) : ℚ) ≤ limit)
    ∧ ((tryConsumeDailyUsage (stateAfter field limit prev) field inc limit).2 = false →
        counterOf (tryConsumeDailyUsage (stateAfter field limit prev) field inc limit).1 field
          = counterOf (stateAfter field limit prev) field) := by
  have hb := counterOf_stateAfter_le field limit hl prev
  set st := stateAfter field limit prev with hst
  unfold tryConsumeDailyUsage
  by_cases hi : normInc inc = 0
  · simp only [hi, if_pos]
    constructor
    · constructor
      · intro _
        push_cast
        simpa [hi] using hb
      · intro _; trivial
    · intro h; cases h
  · simp only [hi, if_neg, not_false_iff]
    by_cases hc : limit < 0 ∨ ((getField (ensureUsageRow st) field + normInc inc : ℤ) : ℚ) ≤ limit
    · rcases hc with hneg | hle
      · linarith
      · simp only [hle, or_true, if_true]
        constructor
        · constructor
          · intro _
            simpa [counterOf] using hle
          · intro _; trivial
        · intro h; cases h
    · simp only [hc, if_neg, not_false_iff]
      push_neg at hc
      constructor
      · constructor
        · intro h; cases h
        · intro h
          exact absurd (by simpa [counterOf] using h) (by simpa using hc.2)
      · intro _
        simp [counterOf, ensureUsageRow]

/-- C2 witness: limit 2 on the chat bucket, after increments [1, 2] (the
second of which was rejected), a further increment of 2 is rejected and the
counter stays at 1. -/
theorem tryConsume_sequence_witness :
    (0 : ℚ) ≤ 2 ∧
    (((tryConsumeDailyUsage (stateAfter .chat_used 2 [some 1, some 2]) .chat_used (some 2) 2).2 = true
        ↔ ((counterOf (stateAfter .chat_used 2 [some 1, some 2]) .chat_used + normInc (some 2) : ℤ) : ℚ) ≤ 2)
      ∧ ((tryConsumeDailyUsage (stateAfter .chat_used 2 [some 1, some 2]) .chat_used (some 2) 2).2 = false →
          counterOf (tryConsumeDailyUsage (stateAfter .chat_used 2 [some 1, some 2]) .chat_used (some 2) 2).1 .chat_used
            = counterOf (stateAfter .chat_used 2 [some 1, some 2]) .chat_used)) :=
  ⟨by norm_num, tryConsume_sequence .chat_used 2 (by norm_num) [some 1, some 2] (some 2)⟩

/-- C8: with limit -1 (unlimited) tryConsumeDailyUsage always admits, for
any current row state, bucket, and increment. -/
theorem tryConsume_unlimited (st : Option ApiKeyUsageRow)
    (field : ApiKeyUsageField) (inc : JsNum) :
    (tryConsumeDailyUsage st field inc (-1)).2 = true := by
  unfold tryConsumeDailyUsage
  by_cases hi : normInc inc = 0
  · simp [hi]
  · have hneg : ((-1 : ℚ) < 0) := by norm_num
    simp [hi, hneg]

/-- C9: both consume functions treat every negative limit as unlimited, and
normalize increments with max(0, floor(inc || 0)), so zero, negative and NaN
increments become 0: such a call returns true, and the zero-increment bucket
is dropped before any storage write. -/
theorem consume_normalization :
    (∀ (st : Option ApiKeyUsageRow) (field : ApiKeyUsageField) (inc : JsNum) (limit : ℚ),
        limit < 0 → (tryConsumeDailyUsage st field inc limit).2 = true)
    ∧ (∀ (st : Option ApiKeyUsageRow) (field : ApiKeyUsageField) (inc : JsNum) (limit : ℚ),
        normInc inc = 0 → tryConsumeDailyUsage st field inc limit = (st, true))
    ∧ (normInc none = 0 ∧ ∀ q : ℚ, q ≤ 0 → normInc (some q) = 0)
    ∧ (∀ (st : Option ApiKeyUsageRow) (updates : List UsageUpdate),
        (∀ u ∈ updates, (normalizeUpdate u).limit < 0) →
        (tryConsumeDailyUsageMulti st updates).2 = true)
    ∧ (∀ (st : Option ApiKeyUsageRow) (updates : List UsageUpdate),
        (∀ u ∈ updates, (normalizeUpdate u).inc = 0) →
        tryConsumeDailyUsageMulti st updates = (st, true))
    ∧ (∀ (st : Option ApiKeyUsageRow) (updates : List UsageUpdate) (u : UsageUpdate),
        (normalizeUpdate u).inc = 0 →
        tryConsumeDailyUsageMulti st (u :: updates) = tryConsumeDailyUsageMulti st updates) := by
  refine ⟨?_, ?_, ⟨by decide, ?_⟩, ?_, ?_, ?_⟩
  · intro st field inc limit hneg
    unfold tryConsumeDailyUsage
    by_cases hi : normInc inc = 0
    · simp [hi]
    · simp [hi, hneg]
  · intro st field inc limit h
    simp [tryConsumeDailyUsage, h]
  · intro q hq
    rcases eq_or_lt_of_le hq with hq0 | hq0
    · subst hq0
      decide
    · have hne : q ≠ 0 := ne_of_lt hq0
      have hfl : ⌊q⌋ ≤ 0 := Int.floor_nonpos hq
      unfold normInc
      rw [show jsOr (some q) 0 = q from by simp [jsOr, hne]]
      exact max_eq_left hfl
  · intro st updates h
    have hall : ((updates.map normalizeUpdate).filter (fun u => 0 < u.inc)).all
        (fun u => decide (u.limit < 0 ∨ getField (ensureUsageRow st) u.field + u.inc ≤ u.limit)) = true := by
      rw [List.all_eq_true]
      intro v hv
      obtain ⟨w, hw, rfl⟩ := List.mem_map.mp (List.mem_of_mem_filter hv)
      exact decide_eq_true (Or.inl (h w hw))
    unfold tryConsumeDailyUsageMulti
    rw [hall]
    split
    · rfl
    · simp
  · intro st updates h
    have hnil : (updates.map normalizeUpdate).filter (fun u => 0 < u.inc) = [] := by
      rw [List.filter_eq_nil_iff]
      intro a ha
      obtain ⟨w, hw, rfl⟩ := List.mem_map.mp ha
      simp [h w hw]
    simp [tryConsumeDailyUsageMulti, hnil]
  · intro st updates u h
    have hfil : ((u :: updates).map normalizeUpdate).filter (fun v => 0 < v.inc)
        = (updates.map normalizeUpdate).filter (fun v => 0 < v.inc) := by
      simp [List.filter_cons, h]
    unfold tryConsumeDailyUsageMulti
    rw [hfil]

/-- C9 witness: concrete calls exercising every clause of
consume_normalization. -/
theorem consume_normalization_witness :
    (tryConsumeDailyUsage (some zeroRow) .chat_used (some 5) (-3)).2 = true
    ∧ tryConsumeDailyUsage (some zeroRow) .image_used (some (-2)) 7 = (some zeroRow, true)
    ∧ normInc (some (-5/2)) = 0
    ∧ (tryConsumeDailyUsageMulti (some zeroRow) [⟨.heavy_used, some 1, some (-2)⟩]).2 = true
    ∧ tryConsumeDailyUsageMulti (some zeroRow)
        [⟨.heavy_used, some 0, some 3⟩, ⟨.chat_used, none, some 3⟩] = (some zeroRow, true)
    ∧ tryConsumeDailyUsageMulti none
        [⟨.video_used, some (-1), some 5⟩, ⟨.chat_used, some 1, some 5⟩]
      = tryConsumeDailyUsageMulti none [⟨.chat_used, some 1, some 5⟩] :=
  ⟨consume_normalization.1 _ _ _ _ (by norm_num),
   consume_normalization.2.1 _ _ _ _ (by decide),
   consume_normalization.2.2.1.2 (-5/2) (by norm_num),
   consume_normalization.2.2.2.1 _ _ (by decide),
   consume_normalization.2.2.2.2.1 _ _ (by decide),
   consume_normalization.2.2.2.2.2 _ _ _ (by decide)⟩

lemma pickLoop_length (rand : ℕ → ℕ) (n : ℕ) :
    ∀ (fuel k : ℕ) (pool picked : List String), pool.length = fuel →
    (∀ s ∈ pool, s ≠ "") → picked.length ≤ n → n ≤ picked.length + pool.length →
    (pickLoop rand n fuel k pool picked).length = n := by
  intro fuel
  induction fuel with
  | zero =>
    intro k pool picked hf hp hl hu
    have hnil : pool = [] := List.length_eq_zero.mp hf
    subst hnil
    simp only [pickLoop]
    simp at hu
    omega
  | succ f ih =>
    intro k pool picked hf hp hl hu
    rw [pickLoop]
    by_cases hcond : picked.length < n ∧ pool ≠ []
    · rw [if_pos hcond]
      have hpos : 0 < pool.length := by omega
      have hidx : rand k % pool.length < pool.length := Nat.mod_lt _ hpos
      have hmem : pool.getD (rand k % pool.length) "" ∈ pool := by
        rw [List.getD_eq_getElem?_getD, List.getElem?_eq_getElem hidx]
        exact List.getElem_mem _
      rw [if_neg (hp _ hmem)]
      have hlen : (pool.eraseIdx (rand k % pool.length)).length = f := by
        rw [List.length_eraseIdx_of_lt hidx, hf]
        omega
      have hp2 : ∀ s ∈ pool.eraseIdx (rand k % pool.length), s ≠ "" :=
        fun s hs => hp s ((List.eraseIdx_sublist pool (rand k % pool.length)).mem hs)
      have := ih (k+1) (pool.eraseIdx (rand k % pool.length))
        (picked ++ [pool.getD (rand k % pool.length) ""]) hlen hp2
        (by simp; omega) (by simp; omega)
      simpa using this
    · rw [if_neg hcond]
      have : ¬picked.length < n := by
        intro hlt
        exact hcond ⟨hlt, by intro hnil; rw [hnil] at hf; simp at hf⟩
      omega

lemma pickLoop_mem (rand : ℕ → ℕ) (n : ℕ) :
    ∀ (fuel k : ℕ) (pool picked : List String) (s : String),
    s ∈ pickLoop rand n fuel k pool picked → s ∈ picked ∨ s ∈ pool := by
  intro fuel
  induction fuel with
  | zero =>
    intro k pool picked s hs
    simp only [pickLoop] at hs
    exact Or.inl hs
  | succ f ih =>
    intro k pool picked s hs
    rw [pickLoop] at hs
    by_cases hcond : picked.length < n ∧ pool ≠ []
    · rw [if_pos hcond] at hs
      have hsub : ∀ t, t ∈ pool.eraseIdx (rand k % pool.length) → t ∈ pool :=
        fun t ht => (List.eraseIdx_sublist pool (rand k % pool.length)).mem ht
      rcases ih _ _ _ _ hs with hpick | hpool
      · by_cases hempty : pool.getD (rand k % pool.length) "" = ""
        · rw [if_pos hempty] at hpick
          exact Or.inl hpick
        · rw [if_neg hempty] at hpick
          rcases List.mem_append.mp hpick with h1 | h2
          · exact Or.inl h1
          · right
            have hsingle : s = pool.getD (rand k % pool.length) "" := by simpa using h2
            subst hsingle
            by_cases hidx : rand k % pool.length < pool.length
            · rw [List.getD_eq_getElem?_getD, List.getElem?_eq_getElem hidx]
              exact List.getElem_mem _
            · exfalso
              have hpos : 0 < pool.length := by
                cases pool with
                | nil => exact absurd rfl hcond.2
                | cons a t => simp
              exact hidx (Nat.mod_lt _ hpos)
      · exact Or.inr (hsub s hpool)
    · rw [if_neg hcond] at hs
      exact Or.inl hs

/-- C6: on lists of nonempty image results (every call site filters out
falsy entries first), pickImageResults always delivers exactly n entries:
with at least n results every delivered entry comes from the input, and with
fewer the input is padded with the "error" placeholder. -/
theorem pickImageResults_spec (rand : ℕ → ℕ) (images : List String) (n : ℕ)
    (h : ∀ s ∈ images, s ≠ "") :
    (pickImageResults rand images n).length = n
    ∧ (n ≤ images.length → ∀ s ∈ pickImageResults rand images n, s ∈ images)
    ∧ (images.length < n →
        pickImageResults rand images n
          = images ++ List.replicate (n - images.length) "error") := by
  unfold pickImageResults
  by_cases hc : n ≤ images.length
  · rw [if_pos hc]
    refine ⟨pickLoop_length rand n images.length 0 images [] rfl h (by simp) (by simpa using hc),
      fun _ s hs => ?_, fun hlt => absurd hc (by omega)⟩
    rcases pickLoop_mem rand n images.length 0 images [] s hs with h1 | h2
    · simp at h1
    · exact h2
  · rw [if_neg hc]
    push_neg at hc
    exact ⟨by simp; omega, fun hle => absurd hle (by omega), fun _ => rfl⟩

/-- C6 witness: three requested from two available results yields a
3-element delivery ending in one "error" placeholder. -/
theorem pickImageResults_spec_witness :
    (pickImageResults (fun _ => 0) ["a", "b"] 3).length = 3
    ∧ (3 ≤ (["a", "b"] : List String).length →
        ∀ s ∈ pickImageResults (fun _ => 0) ["a", "b"] 3, s ∈ (["a", "b"] : List String))
    ∧ ((["a", "b"] : List String).length < 3 →
        pickImageResults (fun _ => 0) ["a", "b"] 3
          = ["a", "b"] ++ List.replicate (3 - (["a", "b"] : List String).length) "error") :=
  pickImageResults_spec (fun _ => 0) ["a", "b"] 3 (by decide)

lemma syntheticBodyGo_last (l : List String) : ∀ i : ℕ,
    syntheticBodyGo i l = []
    ∨ ∃ v j, (syntheticBodyGo i l).getLast? = some (.completed v j) := by
  induction l with
  | nil => intro i; exact Or.inl rfl
  | cons v rest ih =>
    intro i
    by_cases hv : v = "" ∨ v = "error"
    · rw [syntheticBodyGo, if_pos hv]
      simpa using ih (i+1)
    · rw [syntheticBodyGo, if_neg hv]
      rcases ih (i+1) with hnil | ⟨w, j, hlast⟩
      · rw [hnil]
        exact Or.inr ⟨v, (i : ℤ), rfl⟩
      · right
        refine ⟨w, j, ?_⟩
        rw [List.getLast?_append_of_ne_nil, hlast]
        intro hnil
        rw [hnil] at hlast
        simp at hlast

lemma syntheticBodyGo_nil (l : List String) (h : ∀ s ∈ l, s = "" ∨ s = "error") :
    ∀ i : ℕ, syntheticBodyGo i l = [] := by
  induction l with
  | nil => intro i; rfl
  | cons v rest ih =>
    intro i
    rw [syntheticBodyGo, if_pos (h v (by simp))]
    simpa using ih (fun s hs => h s (by simp [hs])) (i+1)

lemma legacyLoop_partial_only (conv : String → String) (n : ℕ) (target : ℤ) :
    ∀ (lines : List UpstreamLine) (evs : List ImageSse) (finals : List String),
    (∀ e ∈ evs, isCompletedEvent e = false) →
    ∀ e ∈ (legacyLoop conv n target lines evs finals).1, isCompletedEvent e = false := by
  intro lines
  induction lines with
  | nil =>
    intro evs finals h e he
    simp only [legacyLoop] at he
    exact h e he
  | cons l rest ih =>
    obtain ⟨err, prog, urls⟩ := l
    intro evs finals h e he
    cases err with
    | some msg =>
      simp only [legacyLoop] at he
      exact h e he
    | none =>
      cases prog with
      | some pv =>
        simp only [legacyLoop] at he
        by_cases hskip : n = 1 ∧ pv.1 ≠ target
        · rw [if_pos hskip] at he
          exact ih evs finals h e he
        · rw [if_neg hskip] at he
          refine ih _ _ (fun x hx => ?_) e he
          rcases List.mem_append.mp hx with h1 | h2
          · exact h x h1
          · have hx2 : x = .partialImage (if n = 1 then 0 else pv.1) pv.2 := by simpa using h2
            rw [hx2]; rfl
      | none =>
        simp only [legacyLoop] at he
        exact ih evs _ h e he

/-- C4 as stated is false on the legacy stream: an upstream body whose final
result set is empty (here: no lines at all) produces a successful stream
with NO completion event, not one carrying the "error" placeholder. -/
theorem legacy_stream_empty_counterexample :
    createImageEventStream (fun s => s) 2 0 [] = ([], false)
    ∧ ((createImageEventStream (fun s => s) 2 0 []).1.filter isCompletedEvent).length = 0 :=
  ⟨rfl, rfl⟩

/-- C4 amended: the experimental-strategy synthetic stream always ends with
a completed event, and with no deliverable value it emits exactly one
completed event carrying the "error" placeholder; the legacy
upstream-converted stream, in contrast, emits no completed event at all when
its collected final result set is empty. -/
theorem image_stream_termination :
    (∀ selected : List String,
        ∃ e, (createSyntheticImageEventStream selected).getLast? = some e
          ∧ isCompletedEvent e = true)
    ∧ (∀ selected : List String, (∀ s ∈ selected, s = "" ∨ s = "error") →
        createSyntheticImageEventStream selected = [.completed "error" 0])
    ∧ (∀ (conv : String → String) (n : ℕ) (target : ℤ) (lines : List UpstreamLine),
        (legacyLoop conv n target lines [] []).2.1 = [] →
        ∀ e ∈ (createImageEventStream conv n target lines).1,
          isCompletedEvent e = false) := by
  refine ⟨?_, ?_, ?_⟩
  · intro selected
    unfold createSyntheticImageEventStream
    rcases syntheticBodyGo_last selected 0 with hnil | ⟨v, j, hlast⟩
    · rw [if_pos hnil]
      exact ⟨.completed "error" 0, rfl, rfl⟩
    · have hne : syntheticBodyGo 0 selected ≠ [] := by
        intro hx; rw [hx] at hlast; simp at hlast
      rw [if_neg hne]
      exact ⟨.completed v j, hlast, rfl⟩
  · intro selected h
    unfold createSyntheticImageEventStream
    rw [if_pos (syntheticBodyGo_nil selected h 0)]
  · intro conv n target lines hfin e he
    unfold createImageEventStream at he
    have hbase : ∀ x ∈ ([] : List ImageSse), isCompletedEvent x = false := by
      intro x hx; simp at hx
    rcases hres : legacyLoop conv n target lines [] [] with ⟨evs, finals, failed⟩
    rw [hres] at he
    have hfin2 : finals = [] := by rw [hres] at hfin; exact hfin
    cases failed with
    | true =>
      refine legacyLoop_partial_only conv n target lines [] [] hbase e ?_
      rw [hres]
      exact he
    | false =>
      subst hfin2
      simp only [legacyCompletionEvents, List.length_nil, List.range_zero,
        List.filterMap_nil, List.append_nil] at he
      refine legacyLoop_partial_only conv n target lines [] [] hbase e ?_
      rw [hres]
      exact he

/-- C4 witness: an all-placeholder selection produces exactly the single
"error" completion, and a legacy stream with one progress-only line and no
images produces no completion event. -/
theorem image_stream_termination_witness :
    createSyntheticImageEventStream ["error"] = [.completed "error" 0]
    ∧ ((createImageEventStream (fun s => s) 2 0
          [⟨none, some (0, 50), []⟩]).1.filter isCompletedEvent) = [] :=
  ⟨image_stream_termination.2.1 ["error"] (by decide),
   List.filter_eq_nil_iff.mpr (fun e he => by
     simpa using image_stream_termination.2.2 (fun s => s) 2 0
       [⟨none, some (0, 50), []⟩] rfl e he)⟩

lemma editsFileLoop_spec : ∀ (files acc : List UploadFile),
    (editsFileLoop files acc).1 = acc ++ files.takeWhile fileOk
    ∧ ((editsFileLoop files acc).2 = none ↔ ∀ f ∈ files, fileOk f = true) := by
  intro files
  induction files with
  | nil => intro acc; simp [editsFileLoop]
  | cons f rest ih =>
    intro acc
    by_cases h0 : f.byteLength = 0
    · have hok : fileOk f = false := by simp [fileOk, h0]
      rw [editsFileLoop, if_pos h0]
      constructor
      · simp [List.takeWhile_cons, hok]
      · constructor
        · intro hc; cases hc
        · intro hall
          have := hall f (by simp)
          rw [hok] at this
          cases this
    · by_cases h1 : maxImageBytes < f.byteLength
      · have hok : fileOk f = false := by simp [fileOk, h0]; omega
        rw [editsFileLoop, if_neg h0, if_pos h1]
        constructor
        · simp [List.takeWhile_cons, hok]
        · constructor
          · intro hc; cases hc
          · intro hall
            have := hall f (by simp)
            rw [hok] at this
            cases this
      · cases hm : parseAllowedImageMime f with
        | none =>
          have hok : fileOk f = false := by simp [fileOk, hm]
          rw [editsFileLoop, if_neg h0, if_neg h1, hm]
          constructor
          · simp [List.takeWhile_cons, hok]
          · constructor
            · intro hc; cases hc
            · intro hall
              have := hall f (by simp)
              rw [hok] at this
              cases this
        | some mime =>
          have hok : fileOk f = true := by
            simp [fileOk, h0, hm]
            omega
          rw [editsFileLoop, if_neg h0, if_neg h1, hm]
          refine ⟨?_, ?_⟩
          · rw [(ih (acc ++ [f])).1]
            simp [List.takeWhile_cons, hok]
          · rw [(ih (acc ++ [f])).2]
            constructor
            · intro hall g hg
              rcases List.mem_cons.mp hg with hgf | hgr
              · rw [hgf]; exact hok
              · exact hall g hgr
            · intro hall g hg
              exact hall g (by simp [hg])

/-- C5 as stated is false: with a valid first file and an invalid second
file, the request is rejected for the second file's MIME type, but the first
file has already been uploaded. -/
theorem edits_upload_before_reject_counterexample :
    imagesEditsFileStage
        [⟨"a.png", "image/png", 10⟩, ⟨"b.bin", "application/octet-stream", 10⟩]
      = ([⟨"a.png", "image/png", 10⟩], some .invalidImageType) := by
  decide

/-- C5 amended: the count checks (no file, more than 16 files) reject before
any upload, and each file is validated before its own upload, but files are
uploaded one by one as they pass: a rejection caused by a later file leaves
exactly the valid prefix of earlier files already uploaded. -/
theorem edits_validation_order :
    imagesEditsFileStage [] = ([], some .missingImage)
    ∧ (∀ files : List UploadFile, 16 < files.length →
        imagesEditsFileStage files = ([], some .tooManyImages))
    ∧ (∀ files : List UploadFile, files ≠ [] → files.length ≤ 16 →
        (imagesEditsFileStage files).1 = files.takeWhile fileOk
        ∧ ((imagesEditsFileStage files).2 = none ↔ ∀ f ∈ files, fileOk f = true)) := by
  refine ⟨rfl, ?_, ?_⟩
  · intro files hlen
    unfold imagesEditsFileStage
    rw [if_neg (by omega), if_pos hlen]
  · intro files hne hlen
    unfold imagesEditsFileStage
    rw [if_neg (by simpa [List.length_eq_zero] using hne), if_neg (by omega)]
    simpa using editsFileLoop_spec files []

/-- C5 witness: seventeen files are rejected for count with nothing
uploaded; a single oversized file is rejected with nothing uploaded. -/
theorem edits_validation_order_witness :
    imagesEditsFileStage (List.replicate 17 (⟨"a.png", "image/png", 10⟩ : UploadFile))
      = ([], some .tooManyImages)
    ∧ (imagesEditsFileStage [(⟨"big.png", "image/png", 52428801⟩ : UploadFile)]).1
        = [(⟨"big.png", "image/png", 52428801⟩ : UploadFile)].takeWhile fileOk
    ∧ ((imagesEditsFileStage [(⟨"big.png", "image/png", 52428801⟩ : UploadFile)]).2 = none
        ↔ ∀ f ∈ [(⟨"big.png", "image/png", 52428801⟩ : UploadFile)], fileOk f = true) :=
  ⟨edits_validation_order.2.1 _ (by decide),
   (edits_validation_order.2.2 [⟨"big.png", "image/png", 52428801⟩] (by decide) (by decide)).1,
   (edits_validation_order.2.2 [⟨"big.png", "image/png", 52428801⟩] (by decide) (by decide)).2⟩

/-- C10: with the experimental generation method configured and default mode
url, an omitted response_format (absent, null or blank) resolves to b64_json
instead of url; with any other method it resolves to url; and for an
explicitly supplied (nonblank string) or non-string response_format the
method has no effect on the result. -/
theorem response_format_method_shift :
    (∀ raw : JsFormValue, isMissingResponseFormat raw = true →
        resolveImageResponseFormatByMethodOrError raw "url" true = some "b64_json"
        ∧ resolveImageResponseFormatByMethodOrError raw "url" false = some "url")
    ∧ (∀ s defaultMode : String, jsTrim s ≠ "" →
        resolveImageResponseFormatByMethodOrError (.str s) defaultMode true
          = resolveImageResponseFormatByMethodOrError (.str s) defaultMode false)
    ∧ (∀ defaultMode : String,
        resolveImageResponseFormatByMethodOrError .nonString defaultMode true
          = resolveImageResponseFormatByMethodOrError .nonString defaultMode false) := by
  refine ⟨?_, ?_, ?_⟩
  · intro raw hmiss
    cases raw with
    | undef => exact ⟨by decide, by decide⟩
    | nullv => exact ⟨by decide, by decide⟩
    | nonString => simp [isMissingResponseFormat] at hmiss
    | str s =>
      have hs : jsTrim s = "" := by
        simpa [isMissingResponseFormat] using hmiss
      have hmiss2 : isMissingResponseFormat (.str s) = true := hmiss
      constructor
      · unfold resolveImageResponseFormatByMethodOrError
        rw [hmiss2, if_pos (by decide)]
        simp only [resolveResponseFormat]
        rw [hs]
        decide
      · unfold resolveImageResponseFormatByMethodOrError
        rw [hmiss2, if_neg (by simp)]
        simp only [resolveResponseFormat]
        rw [hs]
        decide
  · intro s defaultMode hs
    unfold resolveImageResponseFormatByMethodOrError
    have hmiss : isMissingResponseFormat (.str s) = false := by
      simpa [isMissingResponseFormat] using hs
    rw [hmiss]
    simp
  · intro defaultMode
    rfl

/-- C10 witness: a null response_format flips to b64_json exactly under the
experimental method, and an explicit " URL " is resolved identically under
both methods. -/
theorem response_format_method_shift_witness :
    (resolveImageResponseFormatByMethodOrError .nullv "url" true = some "b64_json"
      ∧ resolveImageResponseFormatByMethodOrError .nullv "url" false = some "url")
    ∧ resolveImageResponseFormatByMethodOrError (.str " URL ") "url" true
        = resolveImageResponseFormatByMethodOrError (.str " URL ") "url" false :=
  ⟨response_format_method_shift.1 .nullv (by decide),
   response_format_method_shift.2.1 " URL " "url" (by decide)⟩

lemma chatAttemptLoop_no_quota (selectToken : ℕ → Option String)
    (upstreamAt : ℕ → UpstreamOutcome) (retryCodes : List ℕ) :
    ∀ (remaining attempt : ℕ) (bucket : String),
    (chatAttemptLoop selectToken upstreamAt retryCodes attempt remaining).2.2
      ≠ .quotaExceeded bucket := by
  intro remaining
  induction remaining with
  | zero => intro attempt bucket h; cases h
  | succ r ih =>
    intro attempt bucket h
    rw [chatAttemptLoop] at h
    cases hsel : selectToken attempt with
    | none =>
      rw [hsel] at h
      dsimp only at h
      cases h
    | some tok =>
      rw [hsel] at h
      cases hup : upstreamAt attempt with
      | ok => rw [hup] at h; cases h
      | httpError s =>
        rw [hup] at h
        dsimp only at h
        by_cases hr : s ∈ retryCodes ∧ 0 < r
        · rw [if_pos hr] at h
          exact ih (attempt+1) bucket h
        · rw [if_neg hr] at h
          cases h
      | exn =>
        rw [hup] at h
        dsimp only at h
        by_cases hr : 0 < r
        · rw [if_pos hr] at h
          exact ih (attempt+1) bucket h
        · rw [if_neg hr] at h
          cases h

/-- C3: once validation passes, the chat handler consults the quota exactly
once; the final usage state is the one produced by that single enforceQuota
call whatever the loop does; the response is the 429 quota rejection exactly
when that call rejects; and on rejection no token is selected and no
upstream work happens. -/
theorem chat_quota_once (modelName : String) (messagesPresent modelValid : Bool)
    (key : Option String) (isAdmin : Bool) (limits : Option ApiKeyLimits)
    (isVideoModel isImageModel : Bool) (selectToken : ℕ → Option String)
    (upstreamAt : ℕ → UpstreamOutcome) (retryCodes : List ℕ)
    (st : Option ApiKeyUsageRow)
    (hm : modelName ≠ "") (hmsg : messagesPresent = true) (hv : modelValid = true) :
    (chatCompletionsHandler modelName messagesPresent modelValid key isAdmin limits
        isVideoModel isImageModel selectToken upstreamAt retryCodes st).quotaCalls = 1
    ∧ (chatCompletionsHandler modelName messagesPresent modelValid key isAdmin limits
        isVideoModel isImageModel selectToken upstreamAt retryCodes st).finalUsage
      = (enforceQuota key isAdmin limits modelName (quotaKindOf isVideoModel isImageModel)
          (if isImageModel then some (some 2) else none) st).1
    ∧ (∀ bucket,
        (chatCompletionsHandler modelName messagesPresent modelValid key isAdmin limits
            isVideoModel isImageModel selectToken upstreamAt retryCodes st).response
          = .quotaExceeded bucket
        ↔ (enforceQuota key isAdmin limits modelName (quotaKindOf isVideoModel isImageModel)
            (if isImageModel then some (some 2) else none) st).2 = some bucket)
    ∧ (∀ bucket,
        (chatCompletionsHandler modelName messagesPresent modelValid key isAdmin limits
            isVideoModel isImageModel selectToken upstreamAt retryCodes st).response
          = .quotaExceeded bucket →
        (chatCompletionsHandler modelName messagesPresent modelValid key isAdmin limits
            isVideoModel isImageModel selectToken upstreamAt retryCodes st).selections = 0
        ∧ (chatCompletionsHandler modelName messagesPresent modelValid key isAdmin limits
            isVideoModel isImageModel selectToken upstreamAt retryCodes st).upstreamCalls = 0) := by
  unfold chatCompletionsHandler
  rw [if_neg hm, hmsg, hv]
  simp only [Bool.true_eq_false, if_false]
  rcases hq : enforceQuota key isAdmin limits modelName
      (quotaKindOf isVideoModel isImageModel)
      (if isImageModel then some (some 2) else none) st with ⟨st2, verdict⟩
  cases verdict with
  | some bucket =>
    dsimp only
    refine ⟨rfl, rfl, fun b => ?_, fun b _ => ⟨rfl, rfl⟩⟩
    constructor
    · intro h
      cases h
      rfl
    · intro h
      rw [Option.some_inj.mp h]
  | none =>
    dsimp only
    refine ⟨rfl, rfl, fun b => ?_, fun b hb => ?_⟩
    · constructor
      · intro h
        exact absurd h (chatAttemptLoop_no_quota selectToken upstreamAt retryCodes 3 0 b)
      · intro h
        cases h
    · exact absurd hb (chatAttemptLoop_no_quota selectToken upstreamAt retryCodes 3 0 b)

/-- C3 witness: a key with chat_limit 0 is rejected with bucket "chat";
the rejected request selects no token and makes no upstream call. -/
theorem chat_quota_once_witness :
    (chatCompletionsHandler "grok-3" true true (some "k") false
        (some ⟨0, -1, -1, -1⟩) false false (fun _ => some "tok") (fun _ => .ok) [429]
        none).selections = 0
    ∧ (chatCompletionsHandler "grok-3" true true (some "k") false
        (some ⟨0, -1, -1, -1⟩) false false (fun _ => some "tok") (fun _ => .ok) [429]
        none).upstreamCalls = 0 :=
  (chat_quota_once "grok-3" true true (some "k") false (some ⟨0, -1, -1, -1⟩)
      false false (fun _ => some "tok") (fun _ => .ok) [429] none
      (by decide) rfl rfl).2.2.2 "chat" (by decide)

/-- C1 (divergence witness): a grok-4-heavy request for a key whose
heavy_limit is 0 and chat_limit is 5 on a fresh day is ADMITTED, and both
heavy_used and chat_used are incremented: tryConsumeDailyUsageMulti maps the
limit 0 to -1 (unlimited) through Number(limit) || -1, so the compound call
does not reject as the claim requires. -/
theorem heavy_request_zero_heavy_limit_admitted :
    enforceQuota (some "k") false (some ⟨5, 0, -1, -1⟩) "grok-4-heavy" .chat none none
      = (some ⟨1, 1, 0, 0⟩, none)
    ∧ (tryConsumeDailyUsageMulti none
        [⟨.heavy_used, some 1, some 0⟩, ⟨.chat_used, some 1, some 5⟩]).2 = true
    ∧ (tryConsumeDailyUsage none .heavy_used (some 1) 0).2 = false := by
  refine ⟨by decide, by decide, by decide⟩

set_option maxRecDepth 4000 in
theorem yoe_table1 : ∀ y : ℕ, y < 400 → yoeOf (startOfYoe y) = y := by decide

set_option maxRecDepth 4000 in
theorem yoe_table2 : ∀ y : ℕ, y < 399 → yoeOf (startOfYoe (y+1) - 1) = y := by decide

theorem yoe_last : yoeOf 146096 = 399 := by decide

-- step monotonicity, with bound

theorem accum_step (n : ℕ) (h : n + 1 ≤ 146096) :
    n - n / 1460 + n / 36524 - n / 146096 ≤ (n+1) - (n+1) / 1460 + (n+1) / 36524 - (n+1) / 146096 := by
  omega

theorem digit_facts : ∀ r : ℕ, r < 10 → charVal (digitChar r) = r ∧ (digitChar r).toNat = 48 + r := by decide

theorem yoeOf_mono : ∀ (d n : ℕ), n + d ≤ 146096 → yoeOf n ≤ yoeOf (n + d) := by
  intro d
  induction d with
  | zero => intro n h; simp
  | succ k ih =>
    intro n h
    have h1 : yoeOf n ≤ yoeOf (n + k) := ih n (by omega)
    have h2 : yoeOf (n + k) ≤ yoeOf (n + k + 1) := by
      unfold yoeOf
      have := accum_step (n + k) (by omega)
      exact Nat.div_le_div_right this
    calc yoeOf n ≤ yoeOf (n + k) := h1
      _ ≤ yoeOf (n + (k+1)) := by rw [show n + (k+1) = n + k + 1 from rfl]; exact h2

theorem yoeOf_le_of_le (n m : ℕ) (hnm : n ≤ m) (hm : m ≤ 146096) : yoeOf n ≤ yoeOf m := by
  have := yoeOf_mono (m - n) n (by omega)
  rwa [show n + (m - n) = m from by omega] at this

theorem startOfYoe_gap (y : ℕ) :
    startOfYoe y + 365 ≤ startOfYoe (y+1) ∧ startOfYoe (y+1) ≤ startOfYoe y + 366 := by
  unfold startOfYoe
  omega

theorem yoe_interval (n : ℕ) (hn : n ≤ 146096) :
    yoeOf n ≤ 399 ∧ startOfYoe (yoeOf n) ≤ n ∧ n - startOfYoe (yoeOf n) ≤ 365 := by
  have htop : yoeOf n ≤ 399 := by
    have := yoeOf_le_of_le n 146096 hn (le_refl _)
    rw [yoe_last] at this
    exact this
  refine ⟨htop, ?_, ?_⟩
  · by_contra hlt
    push_neg at hlt
    have hy0 : yoeOf n ≠ 0 := by
      intro h0
      rw [h0] at hlt
      simp [startOfYoe] at hlt
    obtain ⟨y, hy⟩ : ∃ y, yoeOf n = y + 1 := ⟨yoeOf n - 1, by omega⟩
    rw [hy] at hlt
    have hyb : y < 399 := by omega
    have hle : n ≤ startOfYoe (y+1) - 1 := by omega
    have hsb : startOfYoe (y+1) - 1 ≤ 146096 := by
      have h400 : startOfYoe 400 = 146096 := by decide
      have : startOfYoe (y+1) ≤ startOfYoe 400 := by
        unfold startOfYoe; omega
      omega
    have := yoeOf_le_of_le n (startOfYoe (y+1) - 1) hle hsb
    rw [yoe_table2 y hyb] at this
    omega
  · by_cases h399 : yoeOf n = 399
    · rw [h399]
      have : startOfYoe 399 = 145731 := by decide
      omega
    · have hyb : yoeOf n + 1 < 400 := by omega
      by_contra hgt
      push_neg at hgt
      have hge : startOfYoe (yoeOf n + 1) ≤ n := by
        have := (startOfYoe_gap (yoeOf n)).2
        omega
      have := yoeOf_le_of_le (startOfYoe (yoeOf n + 1)) n hge hn
      rw [yoe_table1 (yoeOf n + 1) hyb] at this
      omega

theorem month_day (doy : ℕ) (h : doy ≤ 365) :
    (5 * doy + 2) / 153 ≤ 11
    ∧ (153 * ((5 * doy + 2) / 153) + 2) / 5 ≤ doy
    ∧ doy - (153 * ((5 * doy + 2) / 153) + 2) / 5 + 1 ≤ 31
    ∧ (153 * ((5 * doy + 2) / 153) + 2) / 5 + (doy - (153 * ((5 * doy + 2) / 153) + 2) / 5 + 1 - 1) = doy := by
  omega

theorem md_facts (n : ℕ) (h : doyOf n ≤ 365) :
    mpOf n ≤ 11 ∧ (153 * mpOf n + 2) / 5 ≤ doyOf n ∧ dayOfN n ≤ 31 ∧ 1 ≤ dayOfN n
    ∧ (153 * mpOf n + 2) / 5 + (dayOfN n - 1) = doyOf n := by
  unfold dayOfN mpOf
  omega

theorem roundtrip_core (era : ℤ) (n : ℕ) (hn : n ≤ 146096) :
    daysFromCivil ((yoeOf n : ℤ) + era * 400 + (if monthOf n ≤ 2 then 1 else 0))
      (monthOf n) ((dayOfN n : ℤ))
      = era * 146097 + n - 719468 := by
  obtain ⟨hy399, hstart, hdoy⟩ := yoe_interval n hn
  have hmd := month_day (doyOf n) hdoy
  unfold daysFromCivil
  have hshift : ((yoeOf n : ℤ) + era * 400 + (if monthOf n ≤ 2 then 1 else 0))
      - (if monthOf n ≤ 2 then 1 else 0) = (yoeOf n : ℤ) + era * 400 := by ring
  rw [hshift]
  have h399z : (yoeOf n : ℤ) ≤ 399 := by exact_mod_cast hy399
  have hera : ((yoeOf n : ℤ) + era * 400) / 400 = era := by omega
  rw [hera]
  have hyoe : (((yoeOf n : ℤ) + era * 400) - era * 400).toNat = yoeOf n := by omega
  rw [hyoe]
  have hmp : ((monthOf n) + (if 2 < monthOf n then -3 else 9)).toNat = mpOf n := by
    have h11 : mpOf n ≤ 11 := hmd.1
    unfold monthOf
    by_cases h10 : mpOf n < 10
    · rw [if_pos h10, if_pos (by omega)]
      omega
    · rw [if_neg h10, if_neg (by omega)]
      omega
  rw [hmp]
  have hd : ((dayOfN n : ℤ)).toNat = dayOfN n := by omega
  rw [hd]
  have hdoyeq : (153 * mpOf n + 2) / 5 + (dayOfN n - 1) = doyOf n := by
    unfold dayOfN mpOf
    have := hmd.2.1
    omega
  rw [hdoyeq]
  have hsum : startOfYoe (yoeOf n) + doyOf n = n := by
    unfold doyOf
    omega
  rw [hsum]

theorem daysFromCivil_civilFromDays (z : ℤ) :
    daysFromCivil (civilFromDays z).1 (civilFromDays z).2.1 (civilFromDays z).2.2 = z := by
  have hdoe : (doeOf z : ℤ) = (z + 719468) - eraOf z * 146097 ∧ doeOf z ≤ 146096 := by
    unfold doeOf eraOf
    omega
  have hcore := roundtrip_core (eraOf z) (doeOf z) hdoe.2
  show daysFromCivil ((yoeOf (doeOf z) : ℤ) + eraOf z * 400
      + (if monthOf (doeOf z) ≤ 2 then 1 else 0)) (monthOf (doeOf z)) ((dayOfN (doeOf z) : ℤ)) = z
  rw [hcore]
  omega

theorem civilFromDays_inj (z1 z2 : ℤ) (h : civilFromDays z1 = civilFromDays z2) : z1 = z2 := by
  have h1 := daysFromCivil_civilFromDays z1
  have h2 := daysFromCivil_civilFromDays z2
  rw [h] at h1
  rw [h1] at h2
  exact h2

theorem decode_aux : ∀ fuel n : ℕ, n ≤ fuel → decodeRev (natToDigitsAux fuel n) = n := by
  intro fuel
  induction fuel with
  | zero =>
    intro n hn
    interval_cases n
    rfl
  | succ f ih =>
    intro n hn
    cases n with
    | zero => rfl
    | succ m =>
      rw [natToDigitsAux, decodeRev]
      rw [ih ((m+1) / 10) (by omega)]
      have hd := digit_facts ((m+1) % 10) (Nat.mod_lt _ (by norm_num))
      rw [hd.1]
      omega

theorem natToStr_decode (n : ℕ) : decodeRev (natToStr n).data.reverse = n := by
  unfold natToStr
  by_cases h : n = 0
  · rw [if_pos h, h]
    decide
  · rw [if_neg h]
    show decodeRev (natToDigitsAux n n).reverse.reverse = n
    rw [List.reverse_reverse]
    exact decode_aux n n (le_refl n)

theorem natToStr_inj (a b : ℕ) (h : (natToStr a).data = (natToStr b).data) : a = b := by
  have ha := natToStr_decode a
  have hb := natToStr_decode b
  rw [h] at ha
  rw [ha] at hb
  exact hb

theorem digitsAux_range : ∀ fuel n : ℕ, ∀ c ∈ natToDigitsAux fuel n,
    48 ≤ c.toNat ∧ c.toNat ≤ 57 := by
  intro fuel
  induction fuel with
  | zero => intro n c hc; cases hc
  | succ f ih =>
    intro n c hc
    cases n with
    | zero => cases hc
    | succ m =>
      rw [natToDigitsAux] at hc
      rcases List.mem_cons.mp hc with h1 | h2
      · have hd := digit_facts ((m+1) % 10) (Nat.mod_lt _ (by norm_num))
        rw [h1, hd.2]
        omega
      · exact ih _ c h2

theorem natToStr_head : ∀ n : ℕ, ∃ c rest, (natToStr n).data = c :: rest
    ∧ 48 ≤ c.toNat ∧ c.toNat ≤ 57 := by
  intro n
  unfold natToStr
  by_cases h : n = 0
  · rw [if_pos h]
    exact ⟨'0', [], rfl, by decide, by decide⟩
  · rw [if_neg h]
    obtain ⟨m, hm⟩ : ∃ m, n = m + 1 := ⟨n - 1, by omega⟩
    have hne : natToDigitsAux n n ≠ [] := by
      rw [hm, natToDigitsAux]
      simp
    have hne2 : (natToDigitsAux n n).reverse ≠ [] := by
      simpa using hne
    obtain ⟨c, rest, hcr⟩ := List.exists_cons_of_ne_nil hne2
    refine ⟨c, rest, hcr, ?_⟩
    have hcmem : c ∈ (natToDigitsAux n n).reverse := by rw [hcr]; simp
    rw [List.mem_reverse] at hcmem
    exact digitsAux_range n n c hcmem

theorem intToStr_inj (a b : ℤ) (h : (intToStr a).data = (intToStr b).data) : a = b := by
  unfold intToStr at h
  by_cases ha : a < 0 <;> by_cases hb : b < 0
  · rw [if_pos ha, if_pos hb] at h
    rw [String.data_append, String.data_append] at h
    have : (natToStr a.natAbs).data = (natToStr b.natAbs).data := by
      simpa using h
    have := natToStr_inj _ _ this
    omega
  · rw [if_pos ha, if_neg hb] at h
    rw [String.data_append] at h
    obtain ⟨c, rest, hcr, hlo, hhi⟩ := natToStr_head b.natAbs
    rw [hcr] at h
    have : '-' = c := by
      have : ('-' :: (natToStr a.natAbs).data) = c :: rest := by simpa using h
      exact (List.cons.injEq _ _ _ _ ▸ this).1
    rw [← this] at hlo
    simp at hlo
  · rw [if_neg ha, if_pos hb] at h
    rw [String.data_append] at h
    obtain ⟨c, rest, hcr, hlo, hhi⟩ := natToStr_head a.natAbs
    rw [hcr] at h
    have : c = '-' := by
      have : (c :: rest) = '-' :: (natToStr b.natAbs).data := by simpa using h
      exact (List.cons.injEq _ _ _ _ ▸ this).1
    rw [this] at hlo
    simp at hlo
  · rw [if_neg ha, if_neg hb] at h
    have := natToStr_inj _ _ h
    omega

theorem civil_valid (z : ℤ) :
    1 ≤ (civilFromDays z).2.1 ∧ (civilFromDays z).2.1 ≤ 12
    ∧ 1 ≤ (civilFromDays z).2.2 ∧ (civilFromDays z).2.2 ≤ 31 := by
  have hn : doeOf z ≤ 146096 := by unfold doeOf eraOf; omega
  obtain ⟨hy399, hstart, hdoy⟩ := yoe_interval (doeOf z) hn
  have hmd := md_facts (doeOf z) hdoy
  show 1 ≤ monthOf (doeOf z) ∧ monthOf (doeOf z) ≤ 12
    ∧ 1 ≤ ((dayOfN (doeOf z) : ℤ)) ∧ ((dayOfN (doeOf z) : ℤ)) ≤ 31
  unfold monthOf
  by_cases h10 : mpOf (doeOf z) < 10
  · rw [if_pos h10]
    refine ⟨by omega, by omega, by exact_mod_cast hmd.2.2.2.1, by exact_mod_cast hmd.2.2.1⟩
  · rw [if_neg h10]
    have h11 := hmd.1
    refine ⟨by omega, by omega, by exact_mod_cast hmd.2.2.2.1, by exact_mod_cast hmd.2.2.1⟩

theorem pad2_val : ∀ m : ℤ, 1 ≤ m → m ≤ 31 →
    decodeRev (pad2 m).data.reverse = m.toNat ∧ (pad2 m).data.length = 2 := by
  intro m h1 h2
  interval_cases m <;> exact ⟨by decide, by decide⟩

theorem pad2_inj (a b : ℤ) (ha1 : 1 ≤ a) (ha2 : a ≤ 31) (hb1 : 1 ≤ b) (hb2 : b ≤ 31)
    (h : (pad2 a).data = (pad2 b).data) : a = b := by
  have hva := (pad2_val a ha1 ha2).1
  have hvb := (pad2_val b hb1 hb2).1
  rw [h] at hva
  rw [hva] at hvb
  omega

theorem formatDay_inj (c1 c2 : ℤ × ℤ × ℤ)
    (hv1 : 1 ≤ c1.2.1 ∧ c1.2.1 ≤ 12 ∧ 1 ≤ c1.2.2 ∧ c1.2.2 ≤ 31)
    (hv2 : 1 ≤ c2.2.1 ∧ c2.2.1 ≤ 12 ∧ 1 ≤ c2.2.2 ∧ c2.2.2 ≤ 31)
    (h : formatDay c1 = formatDay c2) : c1 = c2 := by
  obtain ⟨y1, m1, d1⟩ := c1
  obtain ⟨y2, m2, d2⟩ := c2
  obtain ⟨hm1a, hm1b, hd1a, hd1b⟩ := hv1
  obtain ⟨hm2a, hm2b, hd2a, hd2b⟩ := hv2
  have hm1 : 1 ≤ m1 ∧ m1 ≤ 12 := ⟨hm1a, hm1b⟩
  have hd1 : 1 ≤ d1 ∧ d1 ≤ 31 := ⟨hd1a, hd1b⟩
  have hm2 : 1 ≤ m2 ∧ m2 ≤ 12 := ⟨hm2a, hm2b⟩
  have hd2 : 1 ≤ d2 ∧ d2 ≤ 31 := ⟨hd2a, hd2b⟩
  have hdata := congrArg String.data h
  unfold formatDay at hdata
  simp only [String.data_append] at hdata
  have hlm1 : (pad2 m1).data.length = 2 := (pad2_val m1 hm1.1 (by omega)).2
  have hlm2 : (pad2 m2).data.length = 2 := (pad2_val m2 hm2.1 (by omega)).2
  have hld1 : (pad2 d1).data.length = 2 := (pad2_val d1 hd1.1 hd1.2).2
  have hld2 : (pad2 d2).data.length = 2 := (pad2_val d2 hd2.1 hd2.2).2
  have step1 := List.append_inj' hdata (by rw [hld1, hld2])
  have step2 := List.append_inj' step1.1 rfl
  have step3 := List.append_inj' step2.1 (by rw [hlm1, hlm2])
  have step4 := List.append_inj' step3.1 rfl
  rw [Prod.mk.injEq, Prod.mk.injEq]
  exact ⟨intToStr_inj _ _ step4.1, pad2_inj _ _ hm1.1 (by omega) hm2.1 (by omega) step3.2,
    pad2_inj _ _ hd1.1 hd1.2 hd2.1 hd2.2 step1.2⟩

theorem localDayString_iff (tz t1 t2 : ℤ) :
    localDayString t1 tz = localDayString t2 tz ↔ localDayIndex t1 tz = localDayIndex t2 tz := by
  constructor
  · intro h
    unfold localDayString at h
    exact civilFromDays_inj _ _
      (formatDay_inj _ _ (civil_valid _) (civil_valid _) h)
  · intro h
    unfold localDayString
    rw [h]

theorem yoe_unique (y k : ℕ) (hy : y ≤ 399) (h1 : startOfYoe y ≤ k) (h2 : k ≤ 146096)
    (h3 : y < 399 → k < startOfYoe (y+1)) : yoeOf k = y := by
  have hge : y ≤ yoeOf k := by
    have := yoeOf_le_of_le (startOfYoe y) k h1 h2
    rwa [yoe_table1 y (by omega)] at this
  by_cases h399 : y = 399
  · have := yoeOf_le_of_le k 146096 h2 (le_refl _)
    rw [yoe_last] at this
    omega
  · have hk : k ≤ startOfYoe (y+1) - 1 := by
      have := h3 (by omega)
      omega
    have hsb : startOfYoe (y+1) - 1 ≤ 146096 := by
      have h400 : startOfYoe 400 = 146096 := by decide
      have : startOfYoe (y+1) ≤ startOfYoe 400 := by unfold startOfYoe; omega
      omega
    have := yoeOf_le_of_le k (startOfYoe (y+1) - 1) hk hsb
    rw [yoe_table2 y (by omega)] at this
    omega

theorem len_leap (era : ℤ) (y : ℕ) (hy : y ≤ 398) :
    ((startOfYoe (y+1) : ℤ) - startOfYoe y = 366
      ↔ ((era * 400 + (y : ℤ) + 1) % 4 = 0
          ∧ ((era * 400 + (y : ℤ) + 1) % 100 ≠ 0 ∨ (era * 400 + (y : ℤ) + 1) % 400 = 0)))
    ∧ 365 ≤ (startOfYoe (y+1) : ℤ) - startOfYoe y
    ∧ (startOfYoe (y+1) : ℤ) - startOfYoe y ≤ 366 := by
  unfold startOfYoe
  omega

theorem mp_bracket (doy : ℕ) (h : doy ≤ 365) :
    (153 * ((5 * doy + 2) / 153) + 2) / 5 ≤ doy
    ∧ doy < (153 * (((5 * doy + 2) / 153) + 1) + 2) / 5 := by
  omega

-- month-position step within one year of era

theorem mp_step (doy : ℕ) (h : doy + 1 ≤ 365) :
    ((5 * (doy+1) + 2) / 153 = (5 * doy + 2) / 153
      ∧ (doy+1) - (153 * ((5 * (doy+1) + 2) / 153) + 2) / 5 + 1
          = (doy - (153 * ((5 * doy + 2) / 153) + 2) / 5 + 1) + 1
      ∧ doy - (153 * ((5 * doy + 2) / 153) + 2) / 5 + 1 + 1
          ≤ (153 * (((5 * doy + 2) / 153) + 1) + 2) / 5 - (153 * ((5 * doy + 2) / 153) + 2) / 5)
    ∨ ((5 * (doy+1) + 2) / 153 = (5 * doy + 2) / 153 + 1
      ∧ (doy+1) - (153 * ((5 * (doy+1) + 2) / 153) + 2) / 5 + 1 = 1
      ∧ doy - (153 * ((5 * doy + 2) / 153) + 2) / 5 + 1
          = (153 * (((5 * doy + 2) / 153) + 1) + 2) / 5 - (153 * ((5 * doy + 2) / 153) + 2) / 5) := by
  have hmono : (5 * doy + 2) / 153 ≤ (5 * (doy+1) + 2) / 153 :=
    Nat.div_le_div_right (by omega)
  have hstep1 : (5 * (doy+1) + 2) / 153 ≤ (5 * doy + 2) / 153 + 1 := by omega
  have b1 := mp_bracket doy (by omega)
  have b2 := mp_bracket (doy+1) h
  have hcases : (5 * (doy+1) + 2) / 153 = (5 * doy + 2) / 153
      ∨ (5 * (doy+1) + 2) / 153 = (5 * doy + 2) / 153 + 1 := by omega
  rcases hcases with he | he
  · left
    rw [he] at b2 ⊢
    omega
  · right
    rw [he] at b2 ⊢
    omega

theorem month_len_table (y : ℤ) (mp : ℕ) (hmp : mp ≤ 10) :
    daysInMonth y ((mp : ℤ) + (if mp < 10 then 3 else -9))
      = ((153 * (mp + 1) + 2) / 5 : ℕ) - ((153 * mp + 2) / 5 : ℕ) := by
  interval_cases mp <;> norm_num [daysInMonth]

theorem doe_lt_next_start (n : ℕ) (hn : n ≤ 146096) (hy : yoeOf n ≤ 398) :
    n < startOfYoe (yoeOf n + 1) := by
  by_contra h
  push_neg at h
  have := yoeOf_le_of_le (startOfYoe (yoeOf n + 1)) n h hn
  rw [yoe_table1 (yoeOf n + 1) (by omega)] at this
  omega

theorem succ_core (era : ℤ) (n : ℕ) (hn : n + 1 ≤ 146096) :
    ((yoeOf (n+1) : ℤ) + era * 400 + (if monthOf (n+1) ≤ 2 then 1 else 0),
      monthOf (n+1), (dayOfN (n+1) : ℤ))
      = civilSucc ((yoeOf n : ℤ) + era * 400 + (if monthOf n ≤ 2 then 1 else 0),
          monthOf n, (dayOfN n : ℤ)) := by
  obtain ⟨hy399, hstart, hdoy⟩ := yoe_interval n (by omega)
  obtain ⟨hy399s, hstarts, hdoys⟩ := yoe_interval (n+1) hn
  by_cases hR : yoeOf n ≤ 398 ∧ n + 1 = startOfYoe (yoeOf n + 1)
  · -- year-of-era rollover (last day of February to March 1)
    have hyoe1 : yoeOf (n+1) = yoeOf n + 1 := by
      rw [hR.2]
      exact yoe_table1 (yoeOf n + 1) (by omega)
    have hdoy1 : doyOf (n+1) = 0 := by
      unfold doyOf
      rw [hyoe1, ← hR.2]
      omega
    have hmp1 : mpOf (n+1) = 0 := by
      unfold mpOf
      rw [hdoy1]
    have hm1 : monthOf (n+1) = 3 := by
      unfold monthOf
      rw [hmp1]
      norm_num
    have hd1 : dayOfN (n+1) = 1 := by
      unfold dayOfN
      rw [hdoy1, hmp1]
    have hgap := startOfYoe_gap (yoeOf n)
    have hdoyval : 364 ≤ doyOf n ∧ doyOf n ≤ 365 := by
      unfold doyOf
      omega
    have hmp : mpOf n = 11 := by
      unfold mpOf
      omega
    have hm : monthOf n = 2 := by
      unfold monthOf
      rw [hmp]
      norm_num
    have hd : dayOfN n = doyOf n - 336 := by
      unfold dayOfN
      rw [hmp]
      omega
    have hleap := (len_leap era (yoeOf n) hR.1).1
    rw [hyoe1, hm1, hm, hd1]
    rw [if_neg (by norm_num), if_pos (by norm_num)]
    unfold civilSucc
    simp only
    have hcond : ¬((dayOfN n : ℤ)
        < daysInMonth ((yoeOf n : ℤ) + era * 400 + 1) 2) := by
      unfold daysInMonth
      rw [if_pos rfl]
      by_cases hL : ((yoeOf n : ℤ) + era * 400 + 1) % 4 = 0
          ∧ (((yoeOf n : ℤ) + era * 400 + 1) % 100 ≠ 0
              ∨ ((yoeOf n : ℤ) + era * 400 + 1) % 400 = 0)
      · rw [if_pos hL]
        have hlen366 : (startOfYoe (yoeOf n + 1) : ℤ) - startOfYoe (yoeOf n) = 366 := by
          rw [hleap]
          omega
        rw [hd]
        have : doyOf n = 365 := by
          unfold doyOf at *
          omega
        omega
      · rw [if_neg hL]
        have hlen365 : (startOfYoe (yoeOf n + 1) : ℤ) - startOfYoe (yoeOf n) = 365 := by
          rcases (len_leap era (yoeOf n) hR.1).2 with ⟨hlo, hhi⟩
          by_contra hne
          have h366 : (startOfYoe (yoeOf n + 1) : ℤ) - startOfYoe (yoeOf n) = 366 := by omega
          rw [hleap] at h366
          exact hL (by omega)
        rw [hd]
        have : doyOf n = 364 := by
          unfold doyOf at *
          omega
        omega
    rw [if_neg hcond, if_pos (by norm_num : (2:ℤ) < 12)]
    rw [Prod.mk.injEq, Prod.mk.injEq]
    refine ⟨by push_cast; ring, rfl, rfl⟩
  · -- same year of era
    have hyoe1 : yoeOf (n+1) = yoeOf n := by
      apply yoe_unique (yoeOf n) (n+1) hy399 (by omega) hn
      intro hlt
      have hlt2 : n < startOfYoe (yoeOf n + 1) := doe_lt_next_start n (by omega) (by omega)
      have hne : n + 1 ≠ startOfYoe (yoeOf n + 1) := by
        intro heq
        exact hR ⟨by omega, heq⟩
      omega
    have hdoy1 : doyOf (n+1) = doyOf n + 1 := by
      unfold doyOf
      rw [hyoe1]
      omega
    have hstep := mp_step (doyOf n) (by rw [← hdoy1]; exact hdoys)
    have hmp11 := (md_facts n hdoy).1
    have hmp11s := (md_facts (n+1) hdoys).1
    rcases hstep with ⟨hmpe, hde, hdlt⟩ | ⟨hmpe, hde, hdeq⟩
    · -- same month
      have hmpeq : mpOf (n+1) = mpOf n := by
        unfold mpOf
        rw [hdoy1]
        exact hmpe
      have hmeq : monthOf (n+1) = monthOf n := by
        unfold monthOf
        rw [hmpeq]
      have hdval : dayOfN (n+1) = dayOfN n + 1 := by
        unfold dayOfN mpOf
        rw [hdoy1]
        exact hde
      rw [hmeq, hdval]
      unfold civilSucc
      simp only
      have hcond : (dayOfN n : ℤ)
          < daysInMonth ((yoeOf n : ℤ) + era * 400 + (if monthOf n ≤ 2 then 1 else 0))
              (monthOf n) := by
        by_cases h10 : mpOf n ≤ 10
        · rw [show monthOf n = (mpOf n : ℤ) + (if mpOf n < 10 then 3 else -9) from rfl]
          rw [month_len_table _ (mpOf n) h10]
          have hmono : (153 * mpOf n + 2) / 5 ≤ (153 * (mpOf n + 1) + 2) / 5 :=
            Nat.div_le_div_right (by omega)
          have hdlt2 : dayOfN n + 1 ≤ (153 * (mpOf n + 1) + 2) / 5 - (153 * mpOf n + 2) / 5 := hdlt
          omega
        · -- February within the year
          have hmp11' : mpOf n = 11 := by omega
          have hm2 : monthOf n = 2 := by
            unfold monthOf
            rw [hmp11']
            norm_num
          rw [hm2]
          rw [if_pos (by norm_num : (2:ℤ) ≤ 2)]
          unfold daysInMonth
          rw [if_pos rfl]
          have hdle : doyOf n + 1 ≤ 365 := by rw [← hdoy1]; exact hdoys
          have hdlo : 337 ≤ doyOf n := by
            unfold mpOf at hmp11'
            omega
          have hd : dayOfN n = doyOf n - 336 := by
            unfold dayOfN
            rw [hmp11']
            omega
          by_cases hy398 : yoeOf n ≤ 398
          · have hnext : n + 1 < startOfYoe (yoeOf n + 1) := by
              have := doe_lt_next_start (n+1) (by omega) (by rw [hyoe1]; omega)
              rw [hyoe1] at this
              exact this
            have hleap := (len_leap era (yoeOf n) hy398).1
            have hdoybound : doyOf n + 1 < startOfYoe (yoeOf n + 1) - startOfYoe (yoeOf n) := by
              unfold doyOf
              omega
            by_cases hL : ((yoeOf n : ℤ) + era * 400 + 1) % 4 = 0
                ∧ (((yoeOf n : ℤ) + era * 400 + 1) % 100 ≠ 0
                    ∨ ((yoeOf n : ℤ) + era * 400 + 1) % 400 = 0)
            · rw [if_pos hL]
              rw [hd]
              omega
            · rw [if_neg hL]
              have hlen365 : (startOfYoe (yoeOf n + 1) : ℤ) - startOfYoe (yoeOf n) = 365 := by
                rcases (len_leap era (yoeOf n) hy398).2 with ⟨hlo, hhi⟩
                by_contra hne
                have h366 : (startOfYoe (yoeOf n + 1) : ℤ) - startOfYoe (yoeOf n) = 366 := by
                  omega
                rw [hleap] at h366
                exact hL (by omega)
              rw [hd]
              omega
          · -- year of era 399: the era-final February is leap
            have hy399' : yoeOf n = 399 := by omega
            have hLtrue : ((yoeOf n : ℤ) + era * 400 + 1) % 4 = 0
                ∧ (((yoeOf n : ℤ) + era * 400 + 1) % 100 ≠ 0
                    ∨ ((yoeOf n : ℤ) + era * 400 + 1) % 400 = 0) := by
              rw [hy399']
              constructor
              · omega
              · right; omega
            rw [if_pos hLtrue, hd]
            have : doyOf n + 1 ≤ 365 := hdle
            omega
      rw [if_pos hcond]
      rw [Prod.mk.injEq, Prod.mk.injEq]
      refine ⟨by rw [hyoe1], rfl, by push_cast; ring⟩
    · -- month rollover within the year
      have hmpeq : mpOf (n+1) = mpOf n + 1 := by
        unfold mpOf
        rw [hdoy1]
        exact hmpe
      have hd1 : dayOfN (n+1) = 1 := by
        unfold dayOfN mpOf
        rw [hdoy1]
        exact hde
      have hmple : mpOf n ≤ 10 := by omega
      have hdval : dayOfN n = (153 * (mpOf n + 1) + 2) / 5 - (153 * mpOf n + 2) / 5 := by
        unfold dayOfN mpOf
        exact hdeq
      have hcond : ¬((dayOfN n : ℤ)
          < daysInMonth ((yoeOf n : ℤ) + era * 400 + (if monthOf n ≤ 2 then 1 else 0))
              (monthOf n)) := by
        rw [show monthOf n = (mpOf n : ℤ) + (if mpOf n < 10 then 3 else -9) from rfl]
        rw [month_len_table _ (mpOf n) hmple]
        have hmono : (153 * mpOf n + 2) / 5 ≤ (153 * (mpOf n + 1) + 2) / 5 :=
          Nat.div_le_div_right (by omega)
        omega
      unfold civilSucc
      simp only
      rw [if_neg hcond, hd1]
      by_cases hmp9 : mpOf n ≤ 8
      · -- ordinary month increment (March .. November)
        have hm12 : monthOf n < 12 := by
          unfold monthOf
          rw [if_pos (by omega : mpOf n < 10)]
          omega
        rw [if_pos hm12]
        have hmeq : monthOf (n+1) = monthOf n + 1 := by
          unfold monthOf
          rw [hmpeq, if_pos (by omega : mpOf n < 10), if_pos (by omega : mpOf n + 1 < 10)]
          push_cast
          ring
        have hshift : (if monthOf (n+1) ≤ 2 then (1:ℤ) else 0)
            = (if monthOf n ≤ 2 then (1:ℤ) else 0) := by
          have hge : 3 ≤ monthOf n := by
            unfold monthOf
            rw [if_pos (by omega : mpOf n < 10)]
            omega
          rw [if_neg (by omega), if_neg (by omega)]
        rw [Prod.mk.injEq, Prod.mk.injEq]
        exact ⟨by rw [hyoe1, hshift], by rw [hmeq], rfl⟩
      · by_cases hmp10 : mpOf n = 9
        · -- December to January: civil year increments
          have hm : monthOf n = 12 := by
            unfold monthOf
            rw [hmp10]
            norm_num
          have hm1 : monthOf (n+1) = 1 := by
            unfold monthOf
            rw [hmpeq, hmp10]
            norm_num
          rw [hm, hm1]
          rw [if_neg (by norm_num : ¬(12:ℤ) < 12)]
          rw [Prod.mk.injEq, Prod.mk.injEq]
          refine ⟨?_, rfl, rfl⟩
          rw [hyoe1]
          rw [if_pos (by norm_num : (1:ℤ) ≤ 2), if_neg (by norm_num : ¬(12:ℤ) ≤ 2)]
          ring
        · -- January to February
          have hmp10' : mpOf n = 10 := by omega
          have hm : monthOf n = 1 := by
            unfold monthOf
            rw [hmp10']
            norm_num
          have hm1 : monthOf (n+1) = 2 := by
            unfold monthOf
            rw [hmpeq, hmp10']
            norm_num
          rw [hm, hm1]
          rw [if_pos (by norm_num : (1:ℤ) < 12)]
          rw [Prod.mk.injEq, Prod.mk.injEq]
          refine ⟨?_, by norm_num, rfl⟩
          rw [hyoe1]
          rw [if_pos (by norm_num : (2:ℤ) ≤ 2), if_pos (by norm_num : (1:ℤ) ≤ 2)]

theorem civilFromDays_succ (z : ℤ) : civilFromDays (z+1) = civilSucc (civilFromDays z) := by
  by_cases hB : doeOf z = 146096
  · have hera : eraOf (z+1) = eraOf z + 1 := by
      unfold doeOf eraOf at hB
      unfold eraOf
      omega
    have hdoe : doeOf (z+1) = 0 := by
      unfold doeOf eraOf at hB
      unfold doeOf eraOf
      omega
    show ((yoeOf (doeOf (z+1)) : ℤ) + eraOf (z+1) * 400
          + (if monthOf (doeOf (z+1)) ≤ 2 then 1 else 0),
        monthOf (doeOf (z+1)), (dayOfN (doeOf (z+1)) : ℤ))
      = civilSucc ((yoeOf (doeOf z) : ℤ) + eraOf z * 400
          + (if monthOf (doeOf z) ≤ 2 then 1 else 0),
        monthOf (doeOf z), (dayOfN (doeOf z) : ℤ))
    rw [hera, hdoe, hB]
    rw [show yoeOf 0 = 0 from by decide, show monthOf 0 = 3 from by decide,
      show dayOfN 0 = 1 from by decide, show yoeOf 146096 = 399 from by decide,
      show monthOf 146096 = 2 from by decide, show dayOfN 146096 = 29 from by decide]
    rw [if_neg (by norm_num : ¬(3:ℤ) ≤ 2), if_pos (by norm_num : (2:ℤ) ≤ 2)]
    unfold civilSucc
    simp only
    have hcond : ¬(((29:ℕ) : ℤ) < daysInMonth (((399:ℕ) : ℤ) + eraOf z * 400 + 1) 2) := by
      unfold daysInMonth
      rw [if_pos rfl, if_pos (by omega)]
      norm_num
    rw [if_neg hcond, if_pos (by norm_num : (2:ℤ) < 12)]
    rw [Prod.mk.injEq, Prod.mk.injEq]
    refine ⟨by push_cast; ring, rfl, rfl⟩
  · have hlt : doeOf z ≤ 146095 := by
      have h1 : doeOf z ≤ 146096 := by unfold doeOf eraOf; omega
      omega
    have hera : eraOf (z+1) = eraOf z := by
      unfold doeOf eraOf at hlt
      unfold eraOf
      omega
    have hdoe : doeOf (z+1) = doeOf z + 1 := by
      unfold doeOf eraOf at hlt
      unfold doeOf eraOf
      omega
    show ((yoeOf (doeOf (z+1)) : ℤ) + eraOf (z+1) * 400
          + (if monthOf (doeOf (z+1)) ≤ 2 then 1 else 0),
        monthOf (doeOf (z+1)), (dayOfN (doeOf (z+1)) : ℤ))
      = civilSucc ((yoeOf (doeOf z) : ℤ) + eraOf z * 400
          + (if monthOf (doeOf z) ≤ 2 then 1 else 0),
        monthOf (doeOf z), (dayOfN (doeOf z) : ℤ))
    rw [hera, hdoe]
    exact succ_core (eraOf z) (doeOf z) (by omega)

/-- C7: localDayString is a pure function of (nowMs, tzOffsetMinutes); within
the JS Date range, for a fixed offset two timestamps produce the same day
string exactly when they fall in the same local calendar day (the same floor
of the offset-shifted day number), and a timestamp crossing local midnight
into the next local day produces the string of the calendar successor of the
previous day. -/
theorem localDayString_spec (tzOffsetMinutes t1 t2 : ℤ)
    (h1 : |t1 + tzOffsetMinutes * 60 * 1000| ≤ 8640000000000000)
    (h2 : |t2 + tzOffsetMinutes * 60 * 1000| ≤ 8640000000000000) :
    (localDayString t1 tzOffsetMinutes = localDayString t2 tzOffsetMinutes
      ↔ localDayIndex t1 tzOffsetMinutes = localDayIndex t2 tzOffsetMinutes)
    ∧ (localDayIndex t2 tzOffsetMinutes = localDayIndex t1 tzOffsetMinutes + 1 →
        localDayString t2 tzOffsetMinutes
          = formatDay (civilSucc (civilFromDays (localDayIndex t1 tzOffsetMinutes)))) := by
  refine ⟨localDayString_iff _ _ _, fun hnext => ?_⟩
  unfold localDayString
  rw [hnext, civilFromDays_succ]

/-- C7 witness: with the default offset 480, the epoch and the epoch plus
24h land on consecutive local days 1970-01-01 and 1970-01-02. -/
theorem localDayString_spec_witness :
    ((localDayString 0 480 = localDayString 86400000 480
        ↔ localDayIndex 0 480 = localDayIndex 86400000 480)
      ∧ (localDayIndex 86400000 480 = localDayIndex 0 480 + 1 →
          localDayString 86400000 480
            = formatDay (civilSucc (civilFromDays (localDayIndex 0 480)))))
    ∧ localDayString 0 480 = "1970-01-01"
    ∧ localDayString 86400000 480 = "1970-01-02" :=
  ⟨localDayString_spec 480 0 86400000 (by decide) (by decide), by decide, by decide⟩

end Grok2Api
